import Mathlib

/-!
Verification development for the classical-planning module (`planning.py`):
STRIPS-style action schemas, the GraphPlan planning-graph engine
(`Level` / `Graph` / `GraphPlan`), the partial-order planner
(`PartialOrderPlanner`), and the resource-checked high-level actions (`HLA`).

Ground literals and graph nodes are `Expr` values in the source: a predicate
symbol applied to symbol arguments.  They are embedded as `Atom` (an operator
string plus a list of argument strings).  Python dictionaries are embedded as
association lists with insertion-order semantics, Python sets of node pairs as
lists compared up to swapping the components, and the mutable knowledge base
of the external fact store (`FolKB`, which lives outside `src/`) is modelled
from the spec as a list of ground literals with membership-based `ask`.
-/

/-- A ground literal or graph node: predicate/operator name applied to a list
of argument symbols.  Mirrors the `Expr` values used throughout the module. -/
structure Atom where
  op : String
  args : List String
deriving DecidableEq, Repr

/-- Python-style dictionary lookup in an association list keyed by `Atom`
(returns the value of the first entry with the given key). -/
def lookupA (m : List (Atom × List Atom)) (k : Atom) : Option (List Atom) :=
  (m.find? (fun p => p.1 = k)).map (fun p => p.2)

/-- Dictionary lookup defaulting to the empty list when the key is absent. -/
def lookupD (m : List (Atom × List Atom)) (k : Atom) : List Atom :=
  (lookupA m k).getD []

/-- Whether a key is present in the association list (`k in d` in Python). -/
def hasKey (m : List (Atom × List Atom)) (k : Atom) : Bool :=
  m.any (fun p => p.1 = k)

/-- Python `d[k] = v`: replace the value at `k` in place if present, keeping
its position, else append a new entry (dictionaries preserve insertion
order). -/
def dictSet (m : List (Atom × List Atom)) (k : Atom) (v : List Atom) :
    List (Atom × List Atom) :=
  if hasKey m k then m.map (fun p => if p.1 = k then (k, v) else p)
  else m ++ [(k, v)]

/-- The keys of a dictionary in insertion order. -/
def dictKeys (m : List (Atom × List Atom)) : List Atom :=
  m.map (fun p => p.1)

/-- Membership of an unordered pair among recorded pairs: Python compares
two-element sets, so `(a, b)` matches an entry in either orientation. -/
def pairMem (pr : Atom × Atom) (m : List (Atom × Atom)) : Bool :=
  m.any (fun q => (q.1 = pr.1 ∧ q.2 = pr.2) ∨ (q.1 = pr.2 ∧ q.2 = pr.1))

/-- Python `list(set(xs))`, modelled as order-preserving deduplication. -/
def pySet {α : Type} [DecidableEq α] (xs : List α) : List α :=
  xs.foldl (fun acc x => if x ∈ acc then acc else acc ++ [x]) []

/-- Python `str.islower()`: at least one cased character and every cased
character lowercase (letters are the only cased characters that occur). -/
def pyIslower (s : String) : Bool :=
  s.data.any (fun ch => ch.isAlpha) &&
    s.data.all (fun ch => !ch.isAlpha || ch.isLower)

/-- All ways to pick one element of a list together with the remaining
elements, in order of the picked position. -/
def pickOne {α : Type} : List α → List (α × List α)
  | [] => []
  | x :: xs => (x, xs) :: (pickOne xs).map (fun p => (p.1, x :: p.2))

/-- `itertools.permutations(xs, k)`: all length-`k` sequences of elements of
`xs` drawn from distinct positions, in the generation order of the library. -/
def kperms {α : Type} : Nat → List α → List (List α)
  | 0, _ => [[]]
  | n + 1, xs => (pickOne xs).flatMap (fun p => (kperms n p.2).map (fun t => p.1 :: t))

/-- `itertools.combinations(xs, 2)` as ordered pairs. -/
def combinations2 {α : Type} : List α → List (α × α)
  | [] => []
  | x :: xs => (xs.map (fun y => (x, y))) ++ combinations2 xs

/-- `itertools.product(*lists)`: the cartesian product, one choice per list. -/
def listProduct {α : Type} : List (List α) → List (List α)
  | [] => [[]]
  | l :: ls => l.flatMap (fun x => (listProduct ls).map (fun t => x :: t))

/-- Modelled from the spec: `tell` of the external fact store `FolKB`
(`logic.py`, not under `src/`) adds a ground literal to the store. -/
def tellK (kb : List Atom) (c : Atom) : List Atom :=
  if c ∈ kb then kb else kb ++ [c]

/-- Modelled from the spec: `retract` of the external fact store removes a
ground literal from the store. -/
def retractK (kb : List Atom) (c : Atom) : List Atom :=
  kb.filter (fun x => x ≠ c)

/-- Modelled from the spec: `ask` of the external fact store on a ground
query succeeds exactly when the literal is in the store. -/
def askK (kb : List Atom) (c : Atom) : Bool :=
  c ∈ kb

/-- An action schema (`class Action`): name, formal parameter symbols, and
the precondition and effect literal lists. -/
structure PAction where
  name : String
  args : List String
  precond : List Atom
  effect : List Atom
deriving DecidableEq, Repr

/-- One argument position of `Action.substitute`: scan every formal
parameter; each match overwrites the result, so the last matching parameter
index wins, exactly as the nested Python loops do. -/
def substArg (params : List String) (args : List String) (x : String) : String :=
  (List.range params.length).foldl
    (fun acc i => if params.getD i acc = x then args.getD i acc else acc) x

/-- `Action.substitute`: replace every argument of the literal that matches a
formal parameter with the bound argument at that parameter's position. -/
def PAction.substitute (a : PAction) (e : Atom) (bound : List String) : Atom :=
  Atom.mk e.op (e.args.map (substArg a.args bound))

/-- `Action.check_precond`: every substituted precondition literal must be a
member of the store's clause list. -/
def PAction.check_precond (a : PAction) (kb : List Atom) (bound : List String) : Bool :=
  a.precond.all (fun clause => a.substitute clause bound ∈ kb)

/-- The complementary literal computed by `Action.act`: strip a leading
`Not` from the operator, or prepend one (`clause.op[:3] == 'Not'`). -/
def compClause (c : Atom) : Atom :=
  if c.op.take 3 = "Not" then Atom.mk (c.op.drop 3) c.args
  else Atom.mk ("Not" ++ c.op) c.args

/-- One effect step of `Action.act`: tell the substituted effect literal,
then retract its substituted complement if the store holds it. -/
def actStep (a : PAction) (bound : List String) (kb : List Atom) (clause : Atom) :
    List Atom :=
  if askK (tellK kb (a.substitute clause bound))
      (a.substitute (compClause clause) bound) then
    retractK (tellK kb (a.substitute clause bound))
      (a.substitute (compClause clause) bound)
  else tellK kb (a.substitute clause bound)

/-- The store produced by the effect loop of `Action.act`. -/
def actResult (a : PAction) (kb : List Atom) (bound : List String) : List Atom :=
  a.effect.foldl (actStep a bound) kb

/-- `Action.act`: raise when the preconditions are unsatisfied, otherwise
process every effect literal in order against the store. -/
def PAction.act (a : PAction) (kb : List Atom) (bound : List String) :
    Except String (List Atom) :=
  if ¬ a.check_precond kb bound then
    Except.error "Action pre-conditions not satisfied"
  else
    Except.ok (actResult a kb bound)

/-- One layer of the planning graph (`class Level`): the snapshot state, the
four node-link dictionaries populated by `build`, and the mutex pair list
populated by `find_mutex`.  The level's `kb` is the fact store whose clause
list is exactly `current_state`, so the state list stands for both. -/
structure Level where
  current_state : List Atom
  current_action_links : List (Atom × List Atom)
  current_state_links : List (Atom × List Atom)
  next_action_links : List (Atom × List Atom)
  next_state_links : List (Atom × List Atom)
  mutex : List (Atom × Atom)
deriving DecidableEq, Repr

/-- `Level.__init__`: a fresh level holding a state, with empty links and no
mutexes. -/
def initLevel (kb : List Atom) : Level :=
  Level.mk kb [] [] [] [] []

/-- The persistence node for a literal: the predicate name prefixed with
`P`, applied to the same arguments. -/
def pAtom (c : Atom) : Atom :=
  Atom.mk ("P" ++ c.op) c.args

/-- One iteration of the first phase of `Level.build`: register the
persistence action of one literal, linked to the literal alone on both the
current-state and the next-state side. -/
def persistStep (l : Level) (clause : Atom) : Level :=
  { l with
    current_action_links := dictSet l.current_action_links (pAtom clause) [clause],
    next_action_links := dictSet l.next_action_links (pAtom clause) [clause],
    current_state_links := dictSet l.current_state_links clause [pAtom clause],
    next_state_links := dictSet l.next_state_links clause [pAtom clause] }

/-- First phase of `Level.build`: the persistence registration over every
literal of the current state. -/
def persistencePhase (lvl : Level) : Level :=
  lvl.current_state.foldl persistStep lvl

/-- The argument-pinning loop of `Level.build`: every formal parameter whose
symbol is not lowercase (a constant embedded in the schema's parameter list)
overwrites the permutation value at its position. -/
def pinArgs (params : List String) (arg : List String) : List String :=
  (List.range params.length).foldl
    (fun acc i =>
      if ¬ pyIslower (params.getD i "") then acc.set i (params.getD i "") else acc)
    arg

/-- One precondition registration of a ground action in `Level.build`:
append the substituted precondition to the action's current-side links and
the action to the precondition's consumer list.  The uniform
set-to-appended-list update covers both branches of the Python
`if key in dict` idiom. -/
def registerPre (a : PAction) (arg : List String) (newAction : Atom) (l : Level)
    (clause : Atom) : Level :=
  { l with
    current_action_links :=
      dictSet l.current_action_links newAction
        (lookupD l.current_action_links newAction ++ [a.substitute clause arg]),
    current_state_links :=
      dictSet l.current_state_links (a.substitute clause arg)
        (lookupD l.current_state_links (a.substitute clause arg) ++ [newAction]) }

/-- One effect registration of a ground action: append the substituted
effect to the action's next-side links and the action to the effect's
achiever list. -/
def registerEff (a : PAction) (arg : List String) (newAction : Atom) (l : Level)
    (clause : Atom) : Level :=
  { l with
    next_action_links :=
      dictSet l.next_action_links newAction
        (lookupD l.next_action_links newAction ++ [a.substitute clause arg]),
    next_state_links :=
      dictSet l.next_state_links (a.substitute clause arg)
        (lookupD l.next_state_links (a.substitute clause arg) ++ [newAction]) }

/-- The ground-action node registered for a schema and bound arguments. -/
def groundNode (a : PAction) (arg : List String) : Atom :=
  a.substitute (Atom.mk a.name a.args) arg

/-- First stage of the registration: the fresh (empty) entry of the ground
action in `current_action_links`. -/
def registerStage1 (a : PAction) (arg : List String) (l : Level) : Level :=
  { l with current_action_links :=
      dictSet l.current_action_links (groundNode a arg) [] }

/-- Second stage: all precondition registrations. -/
def registerStage2 (a : PAction) (arg : List String) (l : Level) : Level :=
  a.precond.foldl (registerPre a arg (groundNode a arg)) (registerStage1 a arg l)

/-- Third stage: the fresh (empty) entry of the ground action in
`next_action_links`. -/
def registerStage3 (a : PAction) (arg : List String) (l : Level) : Level :=
  { (registerStage2 a arg l) with
    next_action_links :=
      dictSet (registerStage2 a arg l).next_action_links (groundNode a arg) [] }

/-- Full registration of one applicable ground action: the fresh link
entries and every precondition and effect registration, in source order. -/
def registerAction (a : PAction) (arg : List String) (l : Level) : Level :=
  a.effect.foldl (registerEff a arg (groundNode a arg)) (registerStage3 a arg l)

/-- One grounding attempt of `Level.build`: when the schema's precondition
holds against the level's fact store for the raw permutation, pin constant
parameters and register the ground action; otherwise leave the level
alone. -/
def buildArgStep (a : PAction) (l : Level) (arg : List String) : Level :=
  if a.check_precond l.current_state arg then
    registerAction a (pinArgs a.args arg) l
  else l

/-- All grounding attempts of one schema, over every permutation of the
objects of matching arity. -/
def buildActStep (objects : List String) (l : Level) (a : PAction) : Level :=
  (kperms a.args.length objects).foldl (buildArgStep a) l

/-- `Level.build`: persistence actions for every current literal, then every
action schema grounded over every permutation of the objects; a grounding is
registered when its precondition holds in the level's fact store (the
precondition is checked against the unpinned permutation, after which
constant parameters are pinned, exactly as in the source). -/
def Level.build (lvl : Level) (actions : List PAction) (objects : List String) : Level :=
  actions.foldl (buildActStep objects) (persistencePhase lvl)

/-- `Level.separate`: split an iterated collection of literals into the
positive ones and the `Not`-prefixed ones, preserving order. -/
def separate (e : List Atom) : List Atom × List Atom :=
  (e.filter (fun c => ¬ c.op.take 3 = "Not"), e.filter (fun c => c.op.take 3 = "Not"))

/-- Append an unordered pair unless an equal pair (in either orientation) is
already recorded (`if {a, b} not in self.mutex`). -/
def addPairIfNew (m : List (Atom × Atom)) (a b : Atom) : List (Atom × Atom) :=
  if pairMem (a, b) m then m else m ++ [(a, b)]

/-- The inconsistent-effects category of `Level.find_mutex`: every achiever of
a positive next-state literal is mutex with every achiever of its negation. -/
def inconsistentEffects (lvl : Level) : List (Atom × Atom) :=
  let pn := separate (dictKeys lvl.next_state_links)
  pn.2.foldl (fun m negeff =>
    let newNegeff := Atom.mk (negeff.op.drop 3) negeff.args
    pn.1.foldl (fun m poseff =>
      if newNegeff = poseff then
        (lookupD lvl.next_state_links poseff).foldl (fun m a =>
          (lookupD lvl.next_state_links negeff).foldl (fun m b =>
            addPairIfNew m a b) m) m
      else m) m) lvl.mutex

/-- The competing-needs category of `Level.find_mutex`: every consumer of a
positive current-state literal is mutex with every consumer of its
negation. -/
def competingNeeds (lvl : Level) (m0 : List (Atom × Atom)) : List (Atom × Atom) :=
  let pn := separate (dictKeys lvl.current_state_links)
  pn.1.foldl (fun m posprecond =>
    pn.2.foldl (fun m negprecond =>
      let newNegprecond := Atom.mk (negprecond.op.drop 3) negprecond.args
      if newNegprecond = posprecond then
        (lookupD lvl.current_state_links posprecond).foldl (fun m a =>
          (lookupD lvl.current_state_links negprecond).foldl (fun m b =>
            addPairIfNew m a b) m) m
      else m) m) m0

/-- The mutex list after the first two categories of `find_mutex`. -/
def baseMutex (lvl : Level) : List (Atom × Atom) :=
  competingNeeds lvl (inconsistentEffects lvl)

/-- The inconsistent-support pass of `find_mutex`: for every recorded mutex
pair whose two members each map to exactly one next-layer literal in
`next_action_links`, the pair of those single effects is collected. -/
def stateMutexOf (nal : List (Atom × List Atom)) (base : List (Atom × Atom)) :
    List (Atom × Atom) :=
  base.filterMap (fun pr =>
    match lookupD nal pr.1, lookupD nal pr.2 with
    | [x], [y] => some (x, y)
    | _, _ => none)

/-- The full mutex list computed by `Level.find_mutex`. -/
def findMutexList (lvl : Level) : List (Atom × Atom) :=
  let m2 := baseMutex lvl
  m2 ++ stateMutexOf lvl.next_action_links m2

/-- `Level.find_mutex` as a level transformer. -/
def Level.find_mutex (lvl : Level) : Level :=
  { lvl with mutex := findMutexList lvl }

/-- `Level.perform_actions`: the following level is built from the
deduplicated keys of `next_state_links`. -/
def Level.perform_actions (lvl : Level) : Level :=
  initLevel (pySet (dictKeys lvl.next_state_links))

/-- The mutable GraphPlan state: the graph's level list and object set plus
the solver's nogood cache and accumulated partial-solution entries
(`[action_list, index]` pairs). -/
structure GPState where
  levels : List Level
  objects : List String
  actions : List PAction
  nogoods : List (Level × List Atom)
  solution : List (List Atom × Int)
deriving DecidableEq, Repr

/-- `Graph.__init__` + `GraphPlan.__init__`: one initial level holding the
initial facts; the objects are every argument symbol of the initial facts. -/
def mkGraphPlan (init : List Atom) (actions : List PAction) : GPState :=
  GPState.mk [initLevel init] (pySet (init.flatMap (fun c => c.args))) actions [] []

/-- Stand-in level for an out-of-range index (the source would raise
`IndexError`; every run proved about stays in range). -/
def junkLevel : Level :=
  initLevel []

/-- Python list indexing over the level list, supporting the negative indices
the solver uses (`levels[-1]`, `levels[-2]`, ...). -/
def levelAt (levels : List Level) (index : Int) : Level :=
  if index < 0 then levels.getD (Int.toNat (Int.ofNat levels.length + index)) junkLevel
  else levels.getD index.toNat junkLevel

/-- `Graph.non_mutex_goals`: no unordered pair drawn from the goals is a
recorded mutex of the indexed level. -/
def nonMutexGoals (levels : List Level) (goals : List Atom) (index : Int) : Bool :=
  (combinations2 goals).all (fun g => ¬ pairMem g (levelAt levels index).mutex)

/-- `GraphPlan.check_leveloff`: the last two levels hold the same state as
sets. -/
def checkLeveloff (levels : List Level) : Bool :=
  let a := (levelAt levels (-1)).current_state
  let b := (levelAt levels (-2)).current_state
  a.all (fun x => x ∈ b) && b.all (fun x => x ∈ a)

/-- `Graph.expand_graph`: build and mutex-find on the last level in place,
then append the level its actions produce. -/
def expandGraph (gp : GPState) : GPState :=
  let last := gp.levels.getLastD junkLevel
  let built := Level.find_mutex (Level.build last gp.actions gp.objects)
  { gp with levels := gp.levels.dropLast ++ [built, built.perform_actions] }

/-- The action-combination filter of `extract_solution`: the cartesian
product of the per-goal achiever lists, each combination deduplicated, and
dropped again when it contains an internally mutex pair. -/
def nonMutexActionLists (level : Level) (goals : List Atom) : List (List Atom) :=
  let actions := goals.map (fun goal => lookupD level.next_state_links goal)
  (listProduct actions).foldl (fun acc tup =>
    let ded := pySet tup
    if (combinations2 ded).any (fun pr => pairMem pr level.mutex) then acc
    else acc ++ [ded]) []

/-- The new goal set of one combination: the concatenated precondition links
of its (deduplicated) actions. -/
def newGoalsOf (level : Level) (al : List Atom) : List Atom :=
  (pySet al).foldl (fun acc a =>
    if hasKey level.current_action_links a then
      acc ++ lookupD level.current_action_links a
    else acc) []

/-- Append to the last group of the level-ordered regrouping (the source
indexes `solution[-1]`, which presupposes a group was opened by an index `-1`
entry; on an empty list a fresh group stands in for the unreachable
`IndexError`). -/
def appendToLast {α : Type} (gs : List (List α)) (x : α) : List (List α) :=
  match gs with
  | [] => [[x]]
  | _ :: _ => gs.dropLast ++ [gs.getLastD [] ++ [x]]

/-- The post-processing of `extract_solution`: regroup the accumulated
`[action_list, index]` entries, opening a group at every index `-1` entry,
then reverse each group into execution order. -/
def postprocess (entries : List (List Atom × Int)) : List (List (List Atom)) :=
  (entries.foldl (fun acc item =>
    if item.2 = -1 then acc ++ [[item.1]] else appendToLast acc item.1) []).map
    List.reverse

/-- The backtracking loop of `extract_solution` over the surviving action
combinations, threading the solver state; the Boolean records whether one of
the loop's early `return` statements fired (age limit reached or nogood
hit).  `recurse` is the recursive call one level back, whose return value the
source discards. -/
def extractLoopAux (recurse : GPState → List Atom → Int → GPState) (level : Level)
    (index : Int) : GPState → List (List Atom) → GPState × Bool
  | gp, [] => (gp, false)
  | gp, al :: rest =>
    if (al, index) ∈ gp.solution then extractLoopAux recurse level index gp rest
    else
      let gp1 := { gp with solution := gp.solution ++ [(al, index)] }
      let newGoals := newGoalsOf level al
      if index.natAbs + 1 = gp1.levels.length then (gp1, true)
      else if (level, newGoals) ∈ gp1.nogoods then (gp1, true)
      else extractLoopAux recurse level index (recurse gp1 newGoals (index - 1)) rest

/-- The non-mutex branch of `extract_solution`: walk the previous level's
surviving achiever combinations with the backtracking loop.  The fuel of
`extractSolution` bounds the recursion depth; callers pass more fuel than
levels so it never runs out on the runs proved about. -/
def extractCore (recurse : GPState → List Atom → Int → GPState) (gp : GPState)
    (goals : List Atom) (index : Int) : GPState × Bool :=
  extractLoopAux recurse (levelAt gp.levels (index - 1)) index gp
    (nonMutexActionLists (levelAt gp.levels (index - 1)) goals)

/-- `GraphPlan.extract_solution`: record a nogood and fail when the goals
are mutex at the index; otherwise run the backtracking loop, returning
nothing when one of its early returns fired and the regrouped level-ordered
solution on normal loop exit. -/
def extractSolution (fuel : Nat) (gp : GPState) (goals : List Atom) (index : Int) :
    GPState × Option (List (List (List Atom))) :=
  match fuel with
  | 0 => (gp, none)
  | fuel' + 1 =>
    if ¬ nonMutexGoals gp.levels goals index then
      ({ gp with nogoods := gp.nogoods ++ [(levelAt gp.levels index, goals)] }, none)
    else
      if (extractCore (fun g gl i => (extractSolution fuel' g gl i).1)
          gp goals index).2 then
        ((extractCore (fun g gl i => (extractSolution fuel' g gl i).1)
          gp goals index).1, none)
      else
        ((extractCore (fun g gl i => (extractSolution fuel' g gl i).1)
          gp goals index).1,
          some (postprocess (extractCore (fun g gl i => (extractSolution fuel' g gl i).1)
            gp goals index).1.solution))
termination_by fuel

/-- `goal_test` of the GraphPlan driver functions: every goal is answered by
the last level's fact store. -/
def goalTest (kb : List Atom) (goals : List Atom) : Bool :=
  goals.all (fun q => askK kb q)

/-- Python truthiness of an extraction result: `None` and the empty list are
falsy. -/
def truthy (sol : Option (List (List (List Atom)))) : Bool :=
  match sol with
  | some s => ¬ s.isEmpty
  | none => false

/-- The GraphPlan driver loop (shape of `spare_tire_graphplan`): expand, try
extraction when the goals are present and non-mutex, return the solution when
truthy, and return `None` when the graph has levelled off.  The outer fuel
counts loop iterations (the source loops unboundedly); `none` marks fuel
exhaustion, `some none` is the source's `return None`. -/
def graphplanRun : Nat → GPState → List Atom → Option (Option (List (List (List Atom))))
  | 0, _, _ => none
  | fuel + 1, gp, goals =>
    if goalTest (levelAt (expandGraph gp).levels (-1)).current_state goals ∧
        nonMutexGoals (expandGraph gp).levels goals (-1) then
      if truthy (extractSolution ((expandGraph gp).levels.length + 1)
          (expandGraph gp) goals (-1)).2 then
        some (extractSolution ((expandGraph gp).levels.length + 1)
          (expandGraph gp) goals (-1)).2
      else if 2 ≤ (expandGraph gp).levels.length ∧
          checkLeveloff (expandGraph gp).levels then some none
      else graphplanRun fuel
        (extractSolution ((expandGraph gp).levels.length + 1)
          (expandGraph gp) goals (-1)).1 goals
    else
      if 2 ≤ (expandGraph gp).levels.length ∧
          checkLeveloff (expandGraph gp).levels then some none
      else graphplanRun fuel (expandGraph gp) goals

/-- Adjacency-building step of `PartialOrderPlanner.cyclic`: append the edge
head to the tail's neighbour list, creating the entry when absent. -/
def adjAppend {α : Type} [DecidableEq α] (m : List (α × List α)) (k : α) (x : α) :
    List (α × List α) :=
  if m.any (fun p => p.1 = k) then
    m.map (fun p => if p.1 = k then (p.1, p.2 ++ [x]) else p)
  else m ++ [(k, [x])]

/-- Neighbour lookup with empty default (`new_graph.get(vertex, ())`). -/
def lookupAdj {α : Type} [DecidableEq α] (m : List (α × List α)) (k : α) : List α :=
  ((m.find? (fun p => p.1 = k)).map (fun p => p.2)).getD []

/-- The recursive `visit` of `PartialOrderPlanner.cyclic`: depth-first search
carrying the set of vertices on the current path.  Recursion only happens at
a neighbour not yet on the path, so the path holds distinct graph vertices
and the fuel `cyclic` supplies (more than twice the edge count) can never be
exhausted. -/
def cyclicVisit {α : Type} [DecidableEq α] (adj : List (α × List α)) :
    Nat → List α → α → Bool
  | 0, _, _ => false
  | fuel + 1, path, v =>
    let path1 := v :: path
    (lookupAdj adj v).any (fun n => n ∈ path1 || cyclicVisit adj fuel path1 n)

/-- `PartialOrderPlanner.cyclic`: build the adjacency dictionary of the
directed constraint graph and run the path-marking depth-first search from
every vertex that has outgoing edges. -/
def cyclic {α : Type} [DecidableEq α] (graph : List (α × α)) : Bool :=
  let adj := graph.foldl (fun m e => adjAppend m e.1 e.2) []
  (adj.map (fun p => p.1)).any (fun v => cyclicVisit adj (2 * graph.length + 2) [] v)

/-- Set insertion of an ordering constraint (`new_constraints.add(...)` on a
Python set of pairs). -/
def insertC (c : PAction × PAction) (cs : List (PAction × PAction)) :
    List (PAction × PAction) :=
  if c ∈ cs then cs else cs ++ [c]

/-- `PartialOrderPlanner.add_const`: refuse to order anything after `Finish`
or before `Start`, and refuse an edge that would make the constraint graph
cyclic; otherwise extend the constraint set. -/
def add_const (start finish : PAction) (constraint : PAction × PAction)
    (constraints : List (PAction × PAction)) : List (PAction × PAction) :=
  if constraint.1 = finish ∨ constraint.2 = start then constraints
  else if cyclic (insertC constraint constraints) then constraints
  else insertC constraint constraints

/-- `PartialOrderPlanner.is_a_threat`: the effect is the structural negation
of the protected literal (a `Not` prefix on either side) on identical
arguments. -/
def is_a_threat (precondition eff : Atom) : Bool :=
  (eff.op = "Not" ++ precondition.op ∨ "Not" ++ eff.op = precondition.op) ∧
    eff.args = precondition.args

/-- `PartialOrderPlanner.protect`: when the action threatens the causal link
and is neither its producer nor its consumer, first try the ordering
(action, producer); if the extension is acyclic submit it through
`add_const`, otherwise try (consumer, action) the same way; when both
extensions are cyclic the threat is reported unresolvable (`None`). -/
def protect (start finish : PAction) (causal_link : PAction × Atom × PAction)
    (action : PAction) (constraints : List (PAction × PAction)) :
    Option (List (PAction × PAction)) :=
  if action ≠ causal_link.1 ∧ action ≠ causal_link.2.2 ∧
      action.effect.any (fun e => is_a_threat causal_link.2.1 e) then
    if ¬ cyclic (insertC (action, causal_link.1) constraints) then
      some (add_const start finish (action, causal_link.1) constraints)
    else if ¬ cyclic (insertC (causal_link.2.2, action) constraints) then
      some (add_const start finish (causal_link.2.2, action) constraints)
    else none
  else some constraints

/-- The constraint sets reachable during `PartialOrderPlanner.execute`: the
run starts from the single seed constraint `Start < Finish`, and every
mutation of `self.constraints` inside `execute` goes through `add_const` or a
successful `protect`. -/
inductive POPReach (start finish : PAction) : List (PAction × PAction) → Prop
  | init : POPReach start finish [(start, finish)]
  | addc (cs : List (PAction × PAction)) (c : PAction × PAction) :
      POPReach start finish cs → POPReach start finish (add_const start finish c cs)
  | prot (cs cs' : List (PAction × PAction)) (cl : PAction × Atom × PAction)
      (a : PAction) : POPReach start finish cs →
      protect start finish cl a cs = some cs' → POPReach start finish cs'

/-- One pass of the layer-peeling loop of `PartialOrderPlanner.toposort`:
the set of keys whose dependency set is currently empty.  The loop repeatedly
emits this set and deletes it; it stops when no key qualifies, handing back
the residual graph (whose non-emptiness is the source's `ValueError`).  The
fuel `toposort` supplies exceeds the entry count, and every pass removes at
least one entry, so the fuel is never exhausted. -/
def peelOrdered {α : Type} [DecidableEq α] (g : List (α × List α)) : List α :=
  (g.filter (fun p => p.2.isEmpty)).map (fun p => p.1)

/-- The graph remaining after one peeling pass: the emitted keys are removed
from the entry list and from every dependency set. -/
def peelNext {α : Type} [DecidableEq α] (g : List (α × List α)) : List (α × List α) :=
  (g.filter (fun p => p.1 ∉ peelOrdered g)).map
    (fun p => (p.1, p.2.filter (fun d => d ∉ peelOrdered g)))

/-- The peeling loop itself. -/
def peel {α : Type} [DecidableEq α] :
    Nat → List (α × List α) → List (List α) × List (α × List α)
  | 0, g => ([], g)
  | fuel + 1, g =>
    if (peelOrdered g).isEmpty then ([], g)
    else (peelOrdered g :: (peel fuel (peelNext g)).1, (peel fuel (peelNext g)).2)

/-- The self-dependency discarding pass of `PartialOrderPlanner.toposort`
(`v.discard(k)`).  Dependency sets are Python sets, embedded as lists with
membership-based operations. -/
def toposortPrep {α : Type} [DecidableEq α] (graph : List (α × List α)) :
    List (α × List α) :=
  graph.map (fun p => (p.1, p.2.filter (fun d => d ≠ p.1)))

/-- The elements appearing only inside dependency sets
(`extra_elements_in_dependencies`): the union of the dependency sets minus
the key set. -/
def toposortExtra {α : Type} [DecidableEq α] (g1 : List (α × List α)) : List α :=
  ((g1.foldl (fun acc p => acc ++ p.2.filter (fun d => d ∉ acc)) []).filter
    (fun d => d ∉ g1.map (fun p => p.1)))

/-- The dictionary the peeling loop starts from: self-dependencies discarded
and an empty-dependency entry appended for every extra element. -/
def toposortInput {α : Type} [DecidableEq α] (graph : List (α × List α)) :
    List (α × List α) :=
  toposortPrep graph ++ (toposortExtra (toposortPrep graph)).map
    (fun e => (e, ([] : List α)))

/-- `PartialOrderPlanner.toposort`: on the empty dictionary the generator
yields nothing; otherwise discard self-dependencies, add the extra entries,
and run the peeling loop.  The first component is the emitted group sequence,
the second the residual graph, non-empty exactly when the source raises
`ValueError`. -/
def toposort {α : Type} [DecidableEq α] (graph : List (α × List α)) :
    List (List α) × List (α × List α) :=
  if graph.isEmpty then ([], [])
  else peel ((toposortInput graph).length + 1) (toposortInput graph)

/-- A high-level action (`class HLA`): an action schema with duration and the
`uses` / `consumes` resource maps.  The mutable `completed` flags live in
`HLAState` keyed by action name (the job-shop actions all carry distinct
names, standing in for Python object identity). -/
structure HLA extends PAction where
  duration : Int
  consumes : List (String × Int)
  uses : List (String × Int)
deriving DecidableEq, Repr

/-- Resource-amount lookup (`available_resources.get(resource)`). -/
def lookupRes (m : List (String × Int)) (k : String) : Option Int :=
  (m.find? (fun p => p.1 = k)).map (fun p => p.2)

/-- `HLA.has_usable_resource`: every used resource is known and available in
at least the required amount. -/
def has_usable_resource (uses : List (String × Int)) (avail : List (String × Int)) :
    Bool :=
  uses.all (fun p =>
    match lookupRes avail p.1 with
    | none => false
    | some v => ¬ v < p.2)

/-- `HLA.has_consumable_resource`: every consumed resource is known and
available in at least the required amount. -/
def has_consumable_resource (consumes : List (String × Int))
    (avail : List (String × Int)) : Bool :=
  consumes.all (fun p =>
    match lookupRes avail p.1 with
    | none => false
    | some v => ¬ v < p.2)

/-- The inner scan of `HLA.inorder` over the job group containing this
action: reaching the action itself succeeds, an earlier incomplete job
fails. -/
def scanGroup (nm : String) (completed : List String) : List String → Bool
  | [] => true
  | j :: rest =>
    if j = nm then true
    else if j ∉ completed then false
    else scanGroup nm completed rest

/-- `HLA.inorder`: scan the first job group containing this action; an action
in no group is unconstrained. -/
def inorderJ (nm : String) (completed : List String) : List (List String) → Bool
  | [] => true
  | g :: gs => if nm ∈ g then scanGroup nm completed g else inorderJ nm completed gs

/-- Decrement one consumed resource (`available_resources[r] -= consumes[r]`;
the key is present whenever the consumable check passed). -/
def resUpdate (m : List (String × Int)) (k : String) (amt : Int) :
    List (String × Int) :=
  m.map (fun p => if p.1 = k then (p.1, p.2 - amt) else p)

/-- The resource-consumption loop of `HLA.do_action`. -/
def consumeAll (consumes : List (String × Int)) (avail : List (String × Int)) :
    List (String × Int) :=
  consumes.foldl (fun av p => resUpdate av p.1 p.2) avail

/-- The state `HLA.do_action` mutates: the resource ledger, the knowledge
base, and the set of completed job names. -/
structure HLAState where
  resources : List (String × Int)
  kb : List Atom
  completed : List String
deriving DecidableEq, Repr

/-- `HLA.do_action`: the usable-resource, consumable-resource and job-order
checks run in that order before anything is touched; only after all three
pass does the action update the knowledge base, decrement consumed resources
and mark itself completed.  The first component carries the exception message
when one is raised, the second the state as the caller observes it then. -/
def do_action (h : HLA) (job_order : List (List String)) (st : HLAState)
    (bound : List String) : Option String × HLAState :=
  if ¬ has_usable_resource h.uses st.resources then
    (some "Not enough usable resources", st)
  else if ¬ has_consumable_resource h.consumes st.resources then
    (some "Not enough consumable resources", st)
  else if ¬ inorderJ h.name st.completed job_order then
    (some "execute prerequisite actions first", st)
  else
    match h.toPAction.act st.kb bound with
    | Except.error msg => (some msg, st)
    | Except.ok kb2 =>
      (none,
        HLAState.mk (consumeAll h.consumes st.resources) kb2
          (if h.name ∈ st.completed then st.completed
           else st.completed ++ [h.name]))

/-! Concrete problem fragments used to evaluate the definitions on explicit
inputs (cake-style literals and schemas, and small partial-order plans). -/

/-- The ground literal `Have`. -/
def haveA : Atom := Atom.mk "Have" []

/-- The ground literal `NotHave`. -/
def notHaveA : Atom := Atom.mk "NotHave" []

/-- The ground literal `Eaten`. -/
def eatenA : Atom := Atom.mk "Eaten" []

/-- A parameterless schema consuming `Have` and producing `NotHave`. -/
def eatCex : PAction := PAction.mk "Eat" [] [haveA] [notHaveA]

/-- A parameterless schema consuming `Have` and producing `Have` again: a
second achiever of `Have` on the next layer. -/
def brewCex : PAction := PAction.mk "Brew" [] [haveA] [haveA]

/-- A level built from the single fact `Have` with the two schemas above. -/
def c1Level : Level := Level.build (initLevel [haveA]) [eatCex, brewCex] []

/-- The ground literal `Have(Cake)`. -/
def haveCake : Atom := Atom.mk "Have" ["Cake"]

/-- A schema whose name collides with the persistence label of `Have`:
grounding `PHave(x)` at `Cake` produces the node `PHave(Cake)`. -/
def pHaveSchema : PAction := PAction.mk "PHave" ["x"] [Atom.mk "Have" ["x"]] []

/-- A level built from `Have(Cake)` with the colliding schema. -/
def c4Level : Level := Level.build (initLevel [haveCake]) [pHaveSchema] ["Cake"]

/-- An innocuous schema for the persistence witness (its name collides with
no persistence label). -/
def eatCakeSchema : PAction :=
  PAction.mk "Eat" ["x"] [Atom.mk "Have" ["x"]] [Atom.mk "NotHave" ["x"]]

/-- A level built from `Have(Cake)` with the innocuous schema. -/
def c4wLevel : Level := Level.build (initLevel [haveCake]) [eatCakeSchema] ["Cake"]

/-- The ground literal `P`. -/
def pAx : Atom := Atom.mk "P" []

/-- The ground literal `NotP`. -/
def notPAx : Atom := Atom.mk "NotP" []

/-- An action whose effect list contains a complementary literal pair. -/
def badAct : PAction := PAction.mk "Bad" [] [] [pAx, notPAx]

/-- A ground `Eat(Cake)`-style action with complement-free effects. -/
def eatCakeGround : PAction :=
  PAction.mk "Eat" [] [haveCake] [Atom.mk "Eaten" ["Cake"], Atom.mk "NotHave" ["Cake"]]

/-- An action requiring the negative literal `NotQ` as precondition. -/
def needNotQ : PAction := PAction.mk "Need" [] [Atom.mk "NotQ" []] []

/-- A `Start` sentinel for the partial-order planner. -/
def startP : PAction := PAction.mk "Start" [] [] [haveA]

/-- A `Finish` sentinel for the partial-order planner. -/
def finishP : PAction := PAction.mk "Finish" [] [haveA] []

/-- A causal-link producer achieving `Have`. -/
def prodP : PAction := PAction.mk "Producer" [] [] [haveA]

/-- A causal-link consumer requiring `Have`. -/
def consP : PAction := PAction.mk "Consumer" [] [haveA] []

/-- An action whose effect `NotHave` threatens the link protecting `Have`. -/
def threatP : PAction := PAction.mk "Threat" [] [] [notHaveA]

/-- A GraphPlan state for an action-free problem whose goal `Eaten` never
appears: the graph levels off immediately. -/
def c7GP : GPState := mkGraphPlan [haveA] []

/-- A GraphPlan state whose newest level records the proposition mutex
between `Have` and `NotHave`. -/
def c9GP : GPState := GPState.mk [initLevel [haveA], Level.find_mutex c1Level] [] [] [] []

/-- A two-node dependency graph: `2` depends on `1`. -/
def c6Graph : List (Nat × List Nat) := [(2, [1]), (1, [])]

/-- An `AddEngine1`-style high-level action using one engine hoist. -/
def hoistHLA : HLA :=
  HLA.mk (PAction.mk "AddEngine1" [] [] [Atom.mk "Has" ["C1", "E1"]]) 30 []
    [("EngineHoists", 1)]

/-- A ledger with no free engine hoist. -/
def noHoistState : HLAState := HLAState.mk [("EngineHoists", 0)] [] []

/-- The persistence-link property of one literal in a level: the literal's
persistence node maps to exactly the literal on both action-link sides, and
appears among the literal's links on both state-link sides. -/
def persists (l : Level) (c : Atom) : Prop :=
  lookupA l.current_action_links (pAtom c) = some [c] ∧
  lookupA l.next_action_links (pAtom c) = some [c] ∧
  pAtom c ∈ lookupD l.current_state_links c ∧
  pAtom c ∈ lookupD l.next_state_links c

/-- The invariant the peeling loop maintains relative to the original
dependency graph: every remaining dependency is a distinct element, is still
a key of the remaining graph, and was a dependency of the same key in the
original graph. -/
def residOK {α : Type} (g0 g : List (α × List α)) : Prop :=
  ∀ p ∈ g, ∀ d ∈ p.2,
    d ≠ p.1 ∧ d ∈ g.map (fun q => q.1) ∧ ∃ s, (p.1, s) ∈ g0 ∧ d ∈ s

/-! Helper lemmas about the store operations and the complement computation. -/

/-- The length of a dropped string. -/
theorem string_length_drop (s : String) (n : Nat) :
    (s.drop n).length = s.length - n := by
  rw [String.length, String.data_drop, List.length_drop, String.length]

/-- The length of a taken string. -/
theorem string_length_take (s : String) (n : Nat) :
    (s.take n).length = min n s.length := by
  rw [String.length, String.data_take, List.length_take, String.length]

/-- The complement computation always changes the operator (it adds or
removes exactly three characters). -/
theorem compClause_op_ne (c : Atom) : (compClause c).op ≠ c.op := by
  by_cases h : c.op.take 3 = "Not"
  · simp only [compClause, if_pos h]
    intro heq
    have hl := congrArg String.length heq
    rw [string_length_drop] at hl
    have h3 := congrArg String.length h
    rw [string_length_take] at h3
    have hNot : ("Not" : String).length = 3 := rfl
    rw [hNot] at h3
    omega
  · simp only [compClause, if_neg h]
    intro heq
    have hl := congrArg String.length heq
    rw [String.length_append] at hl
    have hNot : ("Not" : String).length = 3 := rfl
    rw [hNot] at hl
    omega

/-- Substitution leaves the operator unchanged. -/
theorem substitute_op (a : PAction) (e : Atom) (bound : List String) :
    (a.substitute e bound).op = e.op := rfl

/-- A substituted complement never coincides with the substituted literal
itself, because their operators differ. -/
theorem substitute_compClause_ne (a : PAction) (c : Atom) (bound : List String) :
    a.substitute (compClause c) bound ≠ a.substitute c bound := by
  intro h
  have h2 : (compClause c).op = c.op := by
    rw [← substitute_op a (compClause c) bound, ← substitute_op a c bound, h]
  exact compClause_op_ne c h2

/-- Membership after `tell`. -/
theorem mem_tellK_iff {kb : List Atom} {c x : Atom} :
    x ∈ tellK kb c ↔ (x ∈ kb ∨ x = c) := by
  unfold tellK
  by_cases h : c ∈ kb
  · simp only [if_pos h]
    exact ⟨Or.inl, fun hx => hx.elim id (fun he => he ▸ h)⟩
  · simp [if_neg h]

/-- Membership after `retract`. -/
theorem mem_retractK_iff {kb : List Atom} {c x : Atom} :
    x ∈ retractK kb c ↔ (x ∈ kb ∧ x ≠ c) := by
  unfold retractK
  simp [List.mem_filter]

/-- One `act` effect step puts its substituted literal into the store. -/
theorem actStep_mem_self (a : PAction) (bound : List String) (kb : List Atom)
    (clause : Atom) : a.substitute clause bound ∈ actStep a bound kb clause := by
  unfold actStep
  split
  · exact mem_retractK_iff.mpr
      ⟨mem_tellK_iff.mpr (Or.inr rfl), Ne.symm (substitute_compClause_ne a clause bound)⟩
  · exact mem_tellK_iff.mpr (Or.inr rfl)

/-- One `act` effect step leaves the store without the substituted
complement of its literal. -/
theorem actStep_comp_not_mem (a : PAction) (bound : List String) (kb : List Atom)
    (clause : Atom) :
    a.substitute (compClause clause) bound ∉ actStep a bound kb clause := by
  unfold actStep
  split
  · intro hmem
    exact (mem_retractK_iff.mp hmem).2 rfl
  · next h =>
    intro hmem
    exact h (by simpa [askK] using hmem)

/-- One `act` effect step keeps any store member distinct from the
complement it retracts. -/
theorem actStep_preserve_mem (a : PAction) (bound : List String) (kb : List Atom)
    (clause x : Atom) (hx : x ∈ kb)
    (hne : x ≠ a.substitute (compClause clause) bound) :
    x ∈ actStep a bound kb clause := by
  unfold actStep
  split
  · exact mem_retractK_iff.mpr ⟨mem_tellK_iff.mpr (Or.inl hx), hne⟩
  · exact mem_tellK_iff.mpr (Or.inl hx)

/-- One `act` effect step introduces nothing but its substituted literal. -/
theorem actStep_preserve_not_mem (a : PAction) (bound : List String)
    (kb : List Atom) (clause x : Atom) (hx : x ∉ kb)
    (hne : x ≠ a.substitute clause bound) :
    x ∉ actStep a bound kb clause := by
  unfold actStep
  split
  · intro hmem
    rcases mem_tellK_iff.mp (mem_retractK_iff.mp hmem).1 with h | h
    · exact hx h
    · exact hne h
  · intro hmem
    rcases mem_tellK_iff.mp hmem with h | h
    · exact hx h
    · exact hne h

/-- The effect loop keeps a member that is the complement of none of the
literals still to be processed. -/
theorem foldl_actStep_mem (a : PAction) (bound : List String) (effs : List Atom) :
    ∀ kb x, x ∈ kb → (∀ c ∈ effs, x ≠ a.substitute (compClause c) bound) →
      x ∈ effs.foldl (actStep a bound) kb := by
  induction effs with
  | nil => exact fun kb x hx _ => hx
  | cons e rest ih =>
    intro kb x hx hcomp
    exact ih (actStep a bound kb e) x
      (actStep_preserve_mem a bound kb e x hx (hcomp e (List.mem_cons_self e rest)))
      (fun c hc => hcomp c (List.mem_cons_of_mem e hc))

/-- The effect loop introduces no literal other than the substituted effects
still to be processed. -/
theorem foldl_actStep_not_mem (a : PAction) (bound : List String) (effs : List Atom) :
    ∀ kb x, x ∉ kb → (∀ c ∈ effs, x ≠ a.substitute c bound) →
      x ∉ effs.foldl (actStep a bound) kb := by
  induction effs with
  | nil => exact fun kb x hx _ => hx
  | cons e rest ih =>
    intro kb x hx heff
    exact ih (actStep a bound kb e) x
      (actStep_preserve_not_mem a bound kb e x hx (heff e (List.mem_cons_self e rest)))
      (fun c hc => heff c (List.mem_cons_of_mem e hc))

/-- Specification of the effect loop when no substituted effect is the
substituted complement of another: every substituted effect ends up in the
store and no substituted complement survives. -/
theorem foldl_actStep_spec (a : PAction) (bound : List String) (effs : List Atom)
    (hcomp : ∀ c1 ∈ effs, ∀ c2 ∈ effs,
      a.substitute c2 bound ≠ a.substitute (compClause c1) bound) :
    ∀ kb, ∀ c ∈ effs,
      a.substitute c bound ∈ effs.foldl (actStep a bound) kb ∧
      a.substitute (compClause c) bound ∉ effs.foldl (actStep a bound) kb := by
  induction effs with
  | nil => intro kb c hc; cases hc
  | cons e rest ih =>
    intro kb c hc
    rcases List.mem_cons.mp hc with rfl | hcr
    · constructor
      · exact foldl_actStep_mem a bound rest (actStep a bound kb c)
          (a.substitute c bound) (actStep_mem_self a bound kb c)
          (fun c2 hc2 => hcomp c2 (List.mem_cons_of_mem c hc2) c
            (List.mem_cons_self c rest))
      · exact foldl_actStep_not_mem a bound rest (actStep a bound kb c)
          (a.substitute (compClause c) bound) (actStep_comp_not_mem a bound kb c)
          (fun c2 hc2 => fun he =>
            hcomp c (List.mem_cons_self c rest) c2 (List.mem_cons_of_mem c hc2) he.symm)
    · exact ih
        (fun c1 h1 c2 h2 => hcomp c1 (List.mem_cons_of_mem e h1) c2
          (List.mem_cons_of_mem e h2))
        (actStep a bound kb e) c hcr

/-! Claim theorems. -/

/-- C3: `check_precond` is true exactly when every substituted precondition
literal, positive or `Not`-encoded negative alike, is a member of the store;
in particular any precondition literal absent from the store (such as a
`NotP` literal when only its absence, not `NotP` itself, holds) makes the
check fail. -/
theorem c3_check_precond_iff (a : PAction) (kb : List Atom) (bound : List String) :
    (a.check_precond kb bound = true ↔
      ∀ c ∈ a.precond, a.substitute c bound ∈ kb) ∧
    (∀ c ∈ a.precond, a.substitute c bound ∉ kb →
      a.check_precond kb bound = false) := by
  have hiff : a.check_precond kb bound = true ↔
      ∀ c ∈ a.precond, a.substitute c bound ∈ kb := by
    simp [PAction.check_precond, List.all_eq_true]
  refine ⟨hiff, fun c hc hmem => ?_⟩
  cases h : a.check_precond kb bound with
  | false => rfl
  | true => exact absurd (hiff.mp h c hc) hmem

/-- C3 witness: an action whose sole precondition is the negative literal
`NotQ` fails its check against a store that contains neither `Q` nor
`NotQ`. -/
theorem c3_witness : needNotQ.check_precond [haveA] [] = false :=
  (c3_check_precond_iff needNotQ [haveA] []).2 (Atom.mk "NotQ" []) (by decide)
    (by decide)

/-- C10: whenever one of the three `do_action` guards fails — insufficient
usable resources, insufficient consumable resources, or an out-of-order job
in its job group — the call raises and the resource ledger, knowledge base
and completion flags are all returned untouched: every check precedes every
mutation. -/
theorem c10_do_action_checks_first (h : HLA) (job_order : List (List String))
    (st : HLAState) (bound : List String)
    (hfail : ¬ (has_usable_resource h.uses st.resources = true ∧
      has_consumable_resource h.consumes st.resources = true ∧
      inorderJ h.name st.completed job_order = true)) :
    (do_action h job_order st bound).2 = st ∧
    (do_action h job_order st bound).1 ≠ none := by
  unfold do_action
  by_cases h1 : has_usable_resource h.uses st.resources = true
  · by_cases h2 : has_consumable_resource h.consumes st.resources = true
    · by_cases h3 : inorderJ h.name st.completed job_order = true
      · exact absurd ⟨h1, h2, h3⟩ hfail
      · simp [h1, h2, h3]
    · simp [h1, h2]
  · simp [h1]

/-- C10 witness: an action using one engine hoist against a ledger with no
free hoist raises and leaves the state unchanged. -/
theorem c10_witness :
    (do_action hoistHLA [] noHoistState []).2 = noHoistState ∧
    (do_action hoistHLA [] noHoistState []).1 ≠ none :=
  c10_do_action_checks_first hoistHLA [] noHoistState [] (by decide)

/-- C8 counterexample: for the action `Bad` with effect list `[P, NotP]`,
`act` succeeds from the empty store, yet the complement of the substituted
effect `P` remains in the resulting store (and `P` itself was even
retracted by the later complementary effect): the claimed postcondition
fails for an action whose effects contain a complementary pair. -/
theorem c8_counterexample :
    badAct.act [] [] = Except.ok [notPAx] ∧
    (pAx ∈ badAct.effect ∧
      badAct.substitute (compClause pAx) [] ∈ [notPAx] ∧
      badAct.substitute pAx [] ∉ [notPAx]) :=
  ⟨rfl, by decide⟩

/-- C8 (amended): `act` raises exactly when `check_precond` fails; when it
succeeds it returns the store produced by the effect loop, and provided no
substituted effect literal is the computed complement of another (the claim
as stated, restricted to complement-free effect lists), every substituted
effect literal is in the resulting store and no substituted effect literal's
complement remains. -/
theorem c8_act_amended (a : PAction) (kb : List Atom) (bound : List String) :
    (a.check_precond kb bound = false →
      a.act kb bound = Except.error "Action pre-conditions not satisfied") ∧
    (a.check_precond kb bound = true →
      a.act kb bound = Except.ok (actResult a kb bound)) ∧
    ((∀ c1 ∈ a.effect, ∀ c2 ∈ a.effect,
        a.substitute c2 bound ≠ a.substitute (compClause c1) bound) →
      ∀ c ∈ a.effect,
        a.substitute c bound ∈ actResult a kb bound ∧
        a.substitute (compClause c) bound ∉ actResult a kb bound) := by
  refine ⟨fun hfail => ?_, fun hok => ?_, fun hcomp c hc => ?_⟩
  · simp [PAction.act, hfail]
  · simp [PAction.act, hok]
  · exact foldl_actStep_spec a bound a.effect hcomp kb c hc

/-- C8 witness: the ground `Eat(Cake)` action has complement-free effects;
after acting on a store holding `Have(Cake)`, the substituted effect
`Eaten(Cake)` is in the store and its complement `NotEaten(Cake)` is not. -/
theorem c8_witness :
    eatCakeGround.substitute (Atom.mk "Eaten" ["Cake"]) [] ∈
      actResult eatCakeGround [haveCake] [] ∧
    eatCakeGround.substitute (compClause (Atom.mk "Eaten" ["Cake"])) [] ∉
      actResult eatCakeGround [haveCake] [] :=
  (c8_act_amended eatCakeGround [haveCake] []).2.2 (by decide)
    (Atom.mk "Eaten" ["Cake"]) (by decide)

/-- A single ordering edge between two distinct actions is acyclic. -/
theorem cyclic_single {α : Type} [DecidableEq α] (x y : α) (hxy : x ≠ y) :
    cyclic [(x, y)] = false := by
  simp [cyclic, adjAppend, lookupAdj, cyclicVisit, hxy, Ne.symm hxy]

/-- `add_const` either returns its input unchanged or returns the inserted
set after checking it acyclic. -/
theorem add_const_cases (s f : PAction) (c : PAction × PAction)
    (cs : List (PAction × PAction)) :
    add_const s f c cs = cs ∨
    (add_const s f c cs = insertC c cs ∧ cyclic (insertC c cs) = false) := by
  unfold add_const
  by_cases h1 : c.1 = f ∨ c.2 = s
  · rw [if_pos h1]
    exact Or.inl rfl
  · rw [if_neg h1]
    by_cases h2 : cyclic (insertC c cs) = true
    · rw [if_pos h2]
      exact Or.inl rfl
    · rw [if_neg h2]
      exact Or.inr ⟨rfl, by simpa using h2⟩

/-- A successful `protect` returns the input constraints or an `add_const`
extension of them. -/
theorem protect_result (s f : PAction) (cl : PAction × Atom × PAction)
    (a : PAction) (cs cs2 : List (PAction × PAction))
    (h : protect s f cl a cs = some cs2) :
    cs2 = cs ∨ cs2 = add_const s f (a, cl.1) cs ∨
      cs2 = add_const s f (cl.2.2, a) cs := by
  unfold protect at h
  split at h
  · split at h
    · exact Or.inr (Or.inl (Option.some.inj h).symm)
    · split at h
      · exact Or.inr (Or.inr (Option.some.inj h).symm)
      · simp at h
  · exact Or.inl (Option.some.inj h).symm

/-- `add_const` preserves acyclicity of the constraint set. -/
theorem cyclic_add_const (s f : PAction) (c : PAction × PAction)
    (cs : List (PAction × PAction)) (h : cyclic cs = false) :
    cyclic (add_const s f c cs) = false := by
  rcases add_const_cases s f c cs with he | ⟨he, hc⟩
  · rw [he]; exact h
  · rw [he]; exact hc

/-- A successful `protect` preserves acyclicity of the constraint set. -/
theorem cyclic_protect (s f : PAction) (cl : PAction × Atom × PAction)
    (a : PAction) (cs cs2 : List (PAction × PAction)) (h : cyclic cs = false)
    (hp : protect s f cl a cs = some cs2) : cyclic cs2 = false := by
  rcases protect_result s f cl a cs cs2 hp with rfl | rfl | rfl
  · exact h
  · exact cyclic_add_const s f (a, cl.1) cs h
  · exact cyclic_add_const s f (cl.2.2, a) cs h

/-- C5: along every run of `execute` — whose constraint set starts at the
seed `Start < Finish` and is only ever replaced through `add_const` or a
successful `protect` — `cyclic` stays false; and `add_const` hands back the
constraint set unchanged when asked to order anything after `Finish` or
before `Start`, and likewise when the inserted edge would make the graph
cyclic. -/
theorem c5_constraints_acyclic (s f : PAction) (hsf : s ≠ f) :
    (∀ cs, POPReach s f cs → cyclic cs = false) ∧
    (∀ (c : PAction × PAction) cs, c.1 = f ∨ c.2 = s → add_const s f c cs = cs) ∧
    (∀ (c : PAction × PAction) cs, cyclic (insertC c cs) = true →
      add_const s f c cs = cs) := by
  refine ⟨?_, ?_, ?_⟩
  · intro cs h
    induction h with
    | init => exact cyclic_single s f hsf
    | addc cs c _ ih => exact cyclic_add_const s f c cs ih
    | prot cs cs2 cl a _ hp ih => exact cyclic_protect s f cl a cs cs2 ih hp
  · intro c cs h1
    unfold add_const
    rw [if_pos h1]
  · intro c cs h2
    unfold add_const
    by_cases h1 : c.1 = f ∨ c.2 = s
    · rw [if_pos h1]
    · rw [if_neg h1, if_pos h2]

/-- C5 witness: the seed constraint set of a run with the concrete `Start`
and `Finish` sentinels is acyclic, and ordering something after `Finish` is
a no-op. -/
theorem c5_witness :
    cyclic [(startP, finishP)] = false ∧
    add_const startP finishP (finishP, prodP) [] = [] :=
  ⟨(c5_constraints_acyclic startP finishP (by decide)).1 [(startP, finishP)]
      POPReach.init,
    (c5_constraints_acyclic startP finishP (by decide)).2.1 (finishP, prodP) []
      (Or.inl rfl)⟩

/-- C2 counterexample: for the causal link (Producer, Have, Consumer) and
the threatening action with effect `NotHave`, `protect` resolves by adding
the ordering (Threat, Producer) — the threatening action BEFORE the link's
producer.  The ordering the claim describes for promotion, producer before
threat, is not added, and neither is threat before consumer. -/
theorem c2_counterexample :
    protect startP finishP (prodP, haveA, consP) threatP [] =
      some [(threatP, prodP)] ∧
    (is_a_threat haveA notHaveA = true ∧ notHaveA ∈ threatP.effect ∧
      (prodP, threatP) ∉ [(threatP, prodP)] ∧
      (threatP, consP) ∉ [(threatP, prodP)]) :=
  ⟨rfl, by decide⟩

/-- C2 (amended): for a threatening action distinct from the producer and
consumer of the link, `protect` first tries ordering the threatening action
before the producer, submitting it via `add_const` when the extension is
acyclic; otherwise it tries ordering the consumer before the threatening
action the same way; when both extensions are cyclic the branch fails with
the reported unresolvable threat (`None`); non-threats leave the constraints
unchanged. -/
theorem c2_protect_amended (s f : PAction) (cl : PAction × Atom × PAction)
    (a : PAction) (cs : List (PAction × PAction)) :
    (¬ (a ≠ cl.1 ∧ a ≠ cl.2.2 ∧
        (a.effect.any (fun e => is_a_threat cl.2.1 e)) = true) →
      protect s f cl a cs = some cs) ∧
    ((a ≠ cl.1 ∧ a ≠ cl.2.2 ∧
        (a.effect.any (fun e => is_a_threat cl.2.1 e)) = true) →
      (cyclic (insertC (a, cl.1) cs) = false →
        protect s f cl a cs = some (add_const s f (a, cl.1) cs)) ∧
      (cyclic (insertC (a, cl.1) cs) = true →
        cyclic (insertC (cl.2.2, a) cs) = false →
        protect s f cl a cs = some (add_const s f (cl.2.2, a) cs)) ∧
      (cyclic (insertC (a, cl.1) cs) = true →
        cyclic (insertC (cl.2.2, a) cs) = true →
        protect s f cl a cs = none)) := by
  refine ⟨fun hn => ?_, fun hc => ⟨fun h1 => ?_, fun h1 h2 => ?_, fun h1 h2 => ?_⟩⟩
  · unfold protect
    rw [if_neg hn]
  · unfold protect
    rw [if_pos hc, if_pos (by simp [h1])]
  · unfold protect
    rw [if_pos hc, if_neg (by simp [h1]), if_pos (by simp [h2])]
  · unfold protect
    rw [if_pos hc, if_neg (by simp [h1]), if_neg (by simp [h2])]

/-- C2 witness: with the edge (Producer, Threat) already present, the first
attempted ordering closes a cycle, so `protect` falls back to ordering the
consumer before the threatening action. -/
theorem c2_witness :
    protect startP finishP (prodP, haveA, consP) threatP [(prodP, threatP)] =
      some [(prodP, threatP), (consP, threatP)] := by
  have h := (c2_protect_amended startP finishP (prodP, haveA, consP) threatP
    [(prodP, threatP)]).2 (by decide)
  exact (h.2.1 (by decide) (by decide)).trans (by rfl)

/-- C9: applied to a goal set that is mutually exclusive at the requested
level index, `extract_solution` records the (level, goals) pair in the
nogood cache and returns `None` immediately: the accumulated partial
solution, the levels, and everything else are untouched and no recursion
happens. -/
theorem c9_extract_mutex_goals (fuel : Nat) (gp : GPState) (goals : List Atom)
    (index : Int) (h : nonMutexGoals gp.levels goals index = false) :
    extractSolution (fuel + 1) gp goals index =
      ({ gp with nogoods := gp.nogoods ++ [(levelAt gp.levels index, goals)] },
        none) := by
  unfold extractSolution
  rw [if_pos (by simp [h])]

/-- C9 witness: against a state whose newest level records the mutex between
`Have` and `NotHave`, extraction of that goal pair appends exactly the one
nogood entry, leaves the partial solution empty, and returns `None`. -/
theorem c9_witness :
    extractSolution 3 c9GP [haveA, notHaveA] (-1) =
      ({ c9GP with nogoods :=
        [(levelAt c9GP.levels (-1), [haveA, notHaveA])] }, none) :=
  c9_extract_mutex_goals 2 c9GP [haveA, notHaveA] (-1) (by decide)

/-- C7: whenever, after the expansion step of an iteration, the last two
levels carry identical state content (`check_leveloff`) and the extraction
branch produced nothing truthy, the GraphPlan solving loop returns `None`
as a value (the model has no exception alternative on this path: the
`return None` statement is taken). -/
theorem c7_leveloff_returns_none (fuel : Nat) (gp : GPState) (goals : List Atom)
    (hlen : 2 ≤ (expandGraph gp).levels.length)
    (hlev : checkLeveloff (expandGraph gp).levels = true)
    (hext : goalTest (levelAt (expandGraph gp).levels (-1)).current_state goals = true →
      nonMutexGoals (expandGraph gp).levels goals (-1) = true →
      truthy (extractSolution ((expandGraph gp).levels.length + 1)
        (expandGraph gp) goals (-1)).2 = false) :
    graphplanRun (fuel + 1) gp goals = some none := by
  unfold graphplanRun
  by_cases hg : goalTest (levelAt (expandGraph gp).levels (-1)).current_state goals =
      true ∧ nonMutexGoals (expandGraph gp).levels goals (-1) = true
  · rw [if_pos hg, if_neg (by simp [hext hg.1 hg.2]), if_pos ⟨hlen, hlev⟩]
  · rw [if_neg hg, if_pos ⟨hlen, hlev⟩]

/-- C7 witness: an action-free problem with initial fact `Have` and goal
`Eaten` levels off after the first expansion and the run returns the
source's `None`. -/
theorem c7_witness : graphplanRun 1 c7GP [eatenA] = some none :=
  c7_leveloff_returns_none 0 c7GP [eatenA] (by decide) (by decide)
    (fun hg _ => absurd hg (by decide))

/-- Unordered-pair membership distributes over list append. -/
theorem pairMem_append (pr : Atom × Atom) (m1 m2 : List (Atom × Atom)) :
    pairMem pr (m1 ++ m2) = (pairMem pr m1 || pairMem pr m2) := by
  unfold pairMem
  exact List.any_append

/-- Unordered-pair membership holds exactly when the pair is recorded in one
of its two orientations. -/
theorem pairMem_iff (pr : Atom × Atom) (m : List (Atom × Atom)) :
    pairMem pr m = true ↔ ∃ e, e ∈ m ∧ (e = pr ∨ e = (pr.2, pr.1)) := by
  unfold pairMem
  rw [List.any_eq_true]
  constructor
  · rintro ⟨e, he, hp⟩
    simp only [decide_eq_true_eq] at hp
    rcases hp with ⟨h1, h2⟩ | ⟨h1, h2⟩
    · exact ⟨e, he, Or.inl (Prod.ext h1 h2)⟩
    · exact ⟨e, he, Or.inr (Prod.ext h1 h2)⟩
  · rintro ⟨e, he, h | h⟩
    · exact ⟨e, he, by simp [h]⟩
    · exact ⟨e, he, by simp [h]⟩

/-- Membership in the inconsistent-support pass output: exactly the pairs of
single effects of an already recorded mutex action pair. -/
theorem stateMutexOf_mem (nal : List (Atom × List Atom)) (base : List (Atom × Atom))
    (e : Atom × Atom) :
    e ∈ stateMutexOf nal base ↔
      ∃ ab, ab ∈ base ∧ lookupD nal ab.1 = [e.1] ∧ lookupD nal ab.2 = [e.2] := by
  unfold stateMutexOf
  rw [List.mem_filterMap]
  constructor
  · rintro ⟨ab, hab, hsome⟩
    refine ⟨ab, hab, ?_⟩
    revert hsome
    split
    · next h1 h2 =>
      intro hsome
      cases Option.some.inj hsome
      exact ⟨h1, h2⟩
    · intro hsome
      exact absurd hsome (by simp)
  · rintro ⟨ab, hab, h1, h2⟩
    refine ⟨ab, hab, ?_⟩
    rw [h1, h2]

/-- C1 (amended): the inconsistent-support pass marks a pair of next-layer
propositions as mutex exactly when some already-found mutex pair of actions
has those propositions as their single listed effects — each action of the
pair carries exactly one next-layer effect in `next_action_links`, and the
marked pair consists of those two effects, in either orientation.  How many
other actions achieve the same propositions is not consulted. -/
theorem c1_inconsistent_support_amended (lvl : Level) (p q : Atom) :
    pairMem (p, q) (findMutexList lvl) = true ↔
      (pairMem (p, q) (baseMutex lvl) = true ∨
        ∃ ab, ab ∈ baseMutex lvl ∧
          ((lookupD lvl.next_action_links ab.1 = [p] ∧
            lookupD lvl.next_action_links ab.2 = [q]) ∨
           (lookupD lvl.next_action_links ab.1 = [q] ∧
            lookupD lvl.next_action_links ab.2 = [p]))) := by
  unfold findMutexList
  rw [pairMem_append, Bool.or_eq_true]
  constructor
  · rintro (h | h)
    · exact Or.inl h
    · rcases (pairMem_iff _ _).mp h with ⟨e, he, hor⟩
      rcases (stateMutexOf_mem _ _ _).mp he with ⟨ab, hab, h1, h2⟩
      rcases hor with rfl | rfl
      · exact Or.inr ⟨ab, hab, Or.inl ⟨h1, h2⟩⟩
      · exact Or.inr ⟨ab, hab, Or.inr ⟨h1, h2⟩⟩
  · rintro (h | ⟨ab, hab, ⟨h1, h2⟩ | ⟨h1, h2⟩⟩)
    · exact Or.inl h
    · exact Or.inr ((pairMem_iff _ _).mpr
        ⟨(p, q), (stateMutexOf_mem _ _ _).mpr ⟨ab, hab, h1, h2⟩, Or.inl rfl⟩)
    · exact Or.inr ((pairMem_iff _ _).mpr
        ⟨(q, p), (stateMutexOf_mem _ _ _).mpr ⟨ab, hab, h1, h2⟩, Or.inr rfl⟩)

/-- C1 counterexample: in the level built from the fact `Have` with the
schemas `Eat` (effect `NotHave`) and `Brew` (effect `Have`), `find_mutex`
marks the proposition pair (Have, NotHave) as mutex by inconsistent support
even though `Have` has TWO achievers on the next layer (its persistence
action and `Brew`), refuting the unique-achiever condition of the claim. -/
theorem c1_counterexample :
    pairMem (haveA, notHaveA) (findMutexList c1Level) = true ∧
    pairMem (haveA, notHaveA) (baseMutex c1Level) = false ∧
    lookupD c1Level.next_state_links haveA =
      [Atom.mk "PHave" [], Atom.mk "Brew" []] :=
  ⟨by decide, by decide, by decide⟩

/-- C1 witness: the amended characterization applied to the concrete level,
through the mutex action pair (PHave, Eat) whose single effects are `Have`
and `NotHave`. -/
theorem c1_witness :
    pairMem (haveA, notHaveA) (findMutexList c1Level) = true :=
  (c1_inconsistent_support_amended c1Level haveA notHaveA).mpr
    (Or.inr ⟨(Atom.mk "PHave" [], Atom.mk "Eat" []), by decide,
      Or.inl ⟨by decide, by decide⟩⟩)

/-- Lookup in an in-place-updated dictionary at the updated key, when the
key was present. -/
theorem lookupA_map_set_self (m : List (Atom × List Atom)) (k : Atom)
    (v : List Atom) (h : hasKey m k = true) :
    lookupA (m.map (fun p => if p.1 = k then (k, v) else p)) k = some v := by
  induction m with
  | nil => simp [hasKey] at h
  | cons p rest ih =>
    by_cases hp : p.1 = k
    · simp [lookupA, List.find?_cons, hp]
    · have h2 : hasKey rest k = true := by
        rcases List.any_eq_true.mp h with ⟨q, hq, hqk⟩
        rcases List.mem_cons.mp hq with rfl | hq2
        · exact absurd (of_decide_eq_true hqk) hp
        · exact List.any_eq_true.mpr ⟨q, hq2, hqk⟩
      simpa [lookupA, List.find?_cons, hp] using ih h2

/-- Lookup at a freshly appended key, when the key was absent. -/
theorem lookupA_append_self (m : List (Atom × List Atom)) (k : Atom)
    (v : List Atom) (h : ¬ hasKey m k = true) :
    lookupA (m ++ [(k, v)]) k = some v := by
  induction m with
  | nil => simp [lookupA, List.find?_cons]
  | cons p rest ih =>
    have hp : ¬ p.1 = k := fun he =>
      h (List.any_eq_true.mpr ⟨p, List.mem_cons_self p rest, decide_eq_true he⟩)
    have h2 : ¬ hasKey rest k = true := fun hh => by
      rcases List.any_eq_true.mp hh with ⟨q, hq, hqk⟩
      exact h (List.any_eq_true.mpr ⟨q, List.mem_cons_of_mem p hq, hqk⟩)
    simpa [lookupA, List.find?_cons, hp] using ih h2

/-- After a dictionary write, lookup at the written key yields the new
value. -/
theorem lookupA_dictSet_self (m : List (Atom × List Atom)) (k : Atom)
    (v : List Atom) : lookupA (dictSet m k v) k = some v := by
  unfold dictSet
  by_cases h : hasKey m k = true
  · rw [if_pos h]
    exact lookupA_map_set_self m k v h
  · rw [if_neg h]
    exact lookupA_append_self m k v h

/-- An in-place update at one key leaves lookup at every other key
unchanged. -/
theorem lookupA_map_set_ne (m : List (Atom × List Atom)) (k : Atom)
    (v : List Atom) (k2 : Atom) (h : k2 ≠ k) :
    lookupA (m.map (fun p => if p.1 = k then (k, v) else p)) k2 = lookupA m k2 := by
  induction m with
  | nil => rfl
  | cons p rest ih =>
    by_cases hp : p.1 = k
    · have hne : ¬ p.1 = k2 := fun he => h (hp ▸ he).symm
      have hne2 : ¬ ((k : Atom) = k2) := fun he => h he.symm
      simp only [List.map_cons, lookupA, List.find?_cons, if_pos hp]
      simp only [lookupA] at ih
      simpa [hne, hne2] using ih
    · by_cases hp2 : p.1 = k2
      · simp [lookupA, List.find?_cons, hp, hp2, h]
      · simp only [List.map_cons, lookupA, List.find?_cons, if_neg hp]
        simp only [lookupA] at ih
        simpa [hp2] using ih

/-- Appending an entry at one key leaves lookup at every other key
unchanged. -/
theorem lookupA_append_ne (m : List (Atom × List Atom)) (k : Atom)
    (v : List Atom) (k2 : Atom) (h : k2 ≠ k) :
    lookupA (m ++ [(k, v)]) k2 = lookupA m k2 := by
  induction m with
  | nil =>
    have hne : ¬ ((k : Atom) = k2) := fun he => h he.symm
    simp [lookupA, List.find?_cons, hne]
  | cons p rest ih =>
    by_cases hp2 : p.1 = k2
    · simp [lookupA, List.find?_cons, hp2]
    · simp only [List.cons_append, lookupA, List.find?_cons]
      simp only [lookupA] at ih
      simpa [hp2] using ih

/-- A dictionary write leaves lookup at every other key unchanged. -/
theorem lookupA_dictSet_ne (m : List (Atom × List Atom)) (k : Atom)
    (v : List Atom) (k2 : Atom) (h : k2 ≠ k) :
    lookupA (dictSet m k v) k2 = lookupA m k2 := by
  unfold dictSet
  by_cases hk : hasKey m k = true
  · rw [if_pos hk]
    exact lookupA_map_set_ne m k v k2 h
  · rw [if_neg hk]
    exact lookupA_append_ne m k v k2 h

/-- Defaulted lookup after a write at the written key. -/
theorem lookupD_dictSet_self (m : List (Atom × List Atom)) (k : Atom)
    (v : List Atom) : lookupD (dictSet m k v) k = v := by
  unfold lookupD
  rw [lookupA_dictSet_self]
  rfl

/-- Defaulted lookup after a write at any other key. -/
theorem lookupD_dictSet_ne (m : List (Atom × List Atom)) (k : Atom)
    (v : List Atom) (k2 : Atom) (h : k2 ≠ k) :
    lookupD (dictSet m k v) k2 = lookupD m k2 := by
  unfold lookupD
  rw [lookupA_dictSet_ne m k v k2 h]

/-- A non-empty defaulted lookup means the key is present. -/
theorem mem_dictKeys_of_lookupD_mem (m : List (Atom × List Atom)) (k : Atom)
    (t : Atom) (h : t ∈ lookupD m k) : k ∈ dictKeys m := by
  unfold lookupD lookupA at h
  cases hf : m.find? (fun p => p.1 = k) with
  | none => rw [hf] at h; simp at h
  | some p =>
    have h1 := List.find?_some hf
    have h2 := List.mem_of_find?_eq_some hf
    exact List.mem_map.mpr ⟨p, h2, of_decide_eq_true h1⟩

/-- A dictionary write keeps every existing key. -/
theorem mem_dictKeys_dictSet (m : List (Atom × List Atom)) (k : Atom)
    (v : List Atom) (k2 : Atom) (h : k2 ∈ dictKeys m) :
    k2 ∈ dictKeys (dictSet m k v) := by
  unfold dictSet
  by_cases hk : hasKey m k = true
  · rw [if_pos hk]
    rcases List.mem_map.mp h with ⟨p, hp, hpk⟩
    refine List.mem_map.mpr ⟨if p.1 = k then (k, v) else p, List.mem_map.mpr ⟨p, hp, rfl⟩, ?_⟩
    by_cases hpk2 : p.1 = k
    · rw [if_pos hpk2]
      exact hpk2 ▸ hpk
    · rw [if_neg hpk2]
      exact hpk
  · rw [if_neg hk]
    unfold dictKeys
    rw [List.map_append]
    exact List.mem_append_left _ h

/-- Membership in the order-preserving deduplicating fold. -/
theorem mem_foldl_ins {α : Type} [DecidableEq α] (xs : List α) :
    ∀ (acc : List α) (x : α),
      x ∈ xs.foldl (fun a y => if y ∈ a then a else a ++ [y]) acc ↔
        (x ∈ acc ∨ x ∈ xs) := by
  induction xs with
  | nil => simp
  | cons y ys ih =>
    intro acc x
    rw [List.foldl_cons, ih]
    by_cases hy : y ∈ acc
    · rw [if_pos hy]
      constructor
      · rintro (h | h)
        · exact Or.inl h
        · exact Or.inr (List.mem_cons_of_mem y h)
      · rintro (h | h)
        · exact Or.inl h
        · rcases List.mem_cons.mp h with rfl | h2
          · exact Or.inl hy
          · exact Or.inr h2
    · rw [if_neg hy]
      constructor
      · rintro (h | h)
        · rcases List.mem_append.mp h with h2 | h2
          · exact Or.inl h2
          · exact Or.inr (List.mem_cons.mpr (Or.inl (List.mem_singleton.mp h2)))
        · exact Or.inr (List.mem_cons_of_mem y h)
      · rintro (h | h)
        · exact Or.inl (List.mem_append_left _ h)
        · rcases List.mem_cons.mp h with rfl | h2
          · exact Or.inl (List.mem_append_right _ (List.mem_singleton.mpr rfl))
          · exact Or.inr h2

/-- Membership in the Python set conversion. -/
theorem mem_pySet {α : Type} [DecidableEq α] (xs : List α) (x : α) :
    x ∈ pySet xs ↔ x ∈ xs := by
  unfold pySet
  rw [mem_foldl_ins]
  simp

/-- Two literals with the same persistence node are equal. -/
theorem pAtom_inj {c1 c2 : Atom} (h : pAtom c1 = pAtom c2) : c1 = c2 := by
  cases c1 with
  | mk op1 args1 =>
    cases c2 with
    | mk op2 args2 =>
      unfold pAtom at h
      simp only [Atom.mk.injEq] at h ⊢
      refine ⟨?_, h.2⟩
      have hd := congrArg String.data h.1
      rw [String.data_append, String.data_append] at hd
      exact String.ext (List.append_cancel_left hd)

/-- Registering a literal's own persistence action establishes its
persistence links. -/
theorem persistStep_establish (l : Level) (c : Atom) :
    persists (persistStep l c) c := by
  unfold persists persistStep
  refine ⟨lookupA_dictSet_self _ _ _, lookupA_dictSet_self _ _ _, ?_, ?_⟩
  · rw [lookupD_dictSet_self]
    exact List.mem_singleton.mpr rfl
  · rw [lookupD_dictSet_self]
    exact List.mem_singleton.mpr rfl

/-- Registering any persistence action preserves the persistence links of
every literal. -/
theorem persistStep_preserve (l : Level) (c c2 : Atom) (h : persists l c) :
    persists (persistStep l c2) c := by
  by_cases hcc : c2 = c
  · subst hcc
    exact persistStep_establish l c2
  · have hpp : pAtom c ≠ pAtom c2 := fun he => hcc (pAtom_inj he).symm
    have hcc2 : c ≠ c2 := fun he => hcc he.symm
    unfold persists persistStep
    refine ⟨?_, ?_, ?_, ?_⟩
    · rw [lookupA_dictSet_ne _ _ _ _ hpp]
      exact h.1
    · rw [lookupA_dictSet_ne _ _ _ _ hpp]
      exact h.2.1
    · rw [lookupD_dictSet_ne _ _ _ _ hcc2]
      exact h.2.2.1
    · rw [lookupD_dictSet_ne _ _ _ _ hcc2]
      exact h.2.2.2

/-- The persistence phase establishes the links of every processed literal
and preserves those already established. -/
theorem persist_foldl (cs : List Atom) :
    ∀ (l : Level) (c : Atom), (c ∈ cs ∨ persists l c) →
      persists (cs.foldl persistStep l) c := by
  induction cs with
  | nil =>
    rintro l c (h | h)
    · cases h
    · exact h
  | cons d rest ih =>
    rintro l c (h | h)
    · rcases List.mem_cons.mp h with rfl | h2
      · exact ih (persistStep l c) c (Or.inr (persistStep_establish l c))
      · exact ih _ c (Or.inl h2)
    · exact ih _ c (Or.inr (persistStep_preserve l c d h))

/-- Appending to a dictionary value keeps every recorded member at every
key. -/
theorem lookupD_dictSet_append_mem (m : List (Atom × List Atom))
    (k : Atom) (x : Atom) (k2 t : Atom) (h : t ∈ lookupD m k2) :
    t ∈ lookupD (dictSet m k (lookupD m k ++ [x])) k2 := by
  by_cases hk : k2 = k
  · subst hk
    rw [lookupD_dictSet_self]
    exact List.mem_append_left _ h
  · rw [lookupD_dictSet_ne _ _ _ _ hk]
    exact h

/-- A precondition registration of a ground node other than the persistence
node preserves the persistence links. -/
theorem registerPre_preserve (a : PAction) (arg : List String) (na : Atom)
    (l : Level) (clause c : Atom) (hna : na ≠ pAtom c) (h : persists l c) :
    persists (registerPre a arg na l clause) c := by
  have hna2 : pAtom c ≠ na := fun he => hna he.symm
  unfold persists registerPre
  refine ⟨?_, h.2.1, ?_, h.2.2.2⟩
  · rw [lookupA_dictSet_ne _ _ _ _ hna2]
    exact h.1
  · exact lookupD_dictSet_append_mem _ _ _ _ _ h.2.2.1

/-- An effect registration of a ground node other than the persistence node
preserves the persistence links. -/
theorem registerEff_preserve (a : PAction) (arg : List String) (na : Atom)
    (l : Level) (clause c : Atom) (hna : na ≠ pAtom c) (h : persists l c) :
    persists (registerEff a arg na l clause) c := by
  have hna2 : pAtom c ≠ na := fun he => hna he.symm
  unfold persists registerEff
  refine ⟨h.1, ?_, h.2.2.1, ?_⟩
  · rw [lookupA_dictSet_ne _ _ _ _ hna2]
    exact h.2.1
  · exact lookupD_dictSet_append_mem _ _ _ _ _ h.2.2.2

/-- The precondition loop preserves the persistence links. -/
theorem foldl_registerPre_preserve (a : PAction) (arg : List String) (na : Atom)
    (clauses : List Atom) :
    ∀ (l : Level) (c : Atom), na ≠ pAtom c → persists l c →
      persists (clauses.foldl (registerPre a arg na) l) c := by
  induction clauses with
  | nil => exact fun l c _ h => h
  | cons d rest ih =>
    intro l c hna h
    exact ih _ c hna (registerPre_preserve a arg na l d c hna h)

/-- The effect loop preserves the persistence links. -/
theorem foldl_registerEff_preserve (a : PAction) (arg : List String) (na : Atom)
    (clauses : List Atom) :
    ∀ (l : Level) (c : Atom), na ≠ pAtom c → persists l c →
      persists (clauses.foldl (registerEff a arg na) l) c := by
  induction clauses with
  | nil => exact fun l c _ h => h
  | cons d rest ih =>
    intro l c hna h
    exact ih _ c hna (registerEff_preserve a arg na l d c hna h)

/-- Registering a full ground action whose node is not the persistence node
preserves the persistence links. -/
theorem registerAction_preserve (a : PAction) (arg : List String) (l : Level)
    (c : Atom) (hna : groundNode a arg ≠ pAtom c) (h : persists l c) :
    persists (registerAction a arg l) c := by
  have hna2 : pAtom c ≠ groundNode a arg := fun he => hna he.symm
  have h1 : persists (registerStage1 a arg l) c := by
    unfold persists registerStage1
    refine ⟨?_, h.2.1, h.2.2.1, h.2.2.2⟩
    rw [lookupA_dictSet_ne _ _ _ _ hna2]
    exact h.1
  have h2 : persists (registerStage2 a arg l) c :=
    foldl_registerPre_preserve a arg (groundNode a arg) a.precond _ c hna h1
  have h3 : persists (registerStage3 a arg l) c := by
    unfold persists registerStage3
    refine ⟨h2.1, ?_, h2.2.2.1, h2.2.2.2⟩
    rw [lookupA_dictSet_ne _ _ _ _ hna2]
    exact h2.2.1
  exact foldl_registerEff_preserve a arg (groundNode a arg) a.effect _ c hna h3

/-- One grounding attempt preserves the persistence links of a literal whose
persistence label differs from the schema's name. -/
theorem buildArgStep_preserve (a : PAction) (l : Level) (arg : List String)
    (c : Atom) (hname : a.name ≠ "P" ++ c.op) (h : persists l c) :
    persists (buildArgStep a l arg) c := by
  unfold buildArgStep
  split
  · refine registerAction_preserve a _ l c ?_ h
    intro he
    exact hname (congrArg Atom.op he)
  · exact h

/-- All grounding attempts of one schema preserve the persistence links. -/
theorem buildActStep_preserve (a : PAction)
    (perms : List (List String)) :
    ∀ (l : Level) (c : Atom), a.name ≠ "P" ++ c.op → persists l c →
      persists (perms.foldl (buildArgStep a) l) c := by
  induction perms with
  | nil => exact fun l c _ h => h
  | cons arg rest ih =>
    intro l c hname h
    exact ih _ c hname (buildArgStep_preserve a l arg c hname h)

/-- The whole grounding phase preserves the persistence links when no schema
name collides with a persistence label. -/
theorem build_fold_preserve (objects : List String) (actions : List PAction) :
    ∀ (l : Level) (c : Atom), (∀ a ∈ actions, a.name ≠ "P" ++ c.op) →
      persists l c → persists (actions.foldl (buildActStep objects) l) c := by
  induction actions with
  | nil => exact fun l c _ h => h
  | cons a rest ih =>
    intro l c hname h
    exact ih _ c (fun b hb => hname b (List.mem_cons_of_mem a hb))
      (buildActStep_preserve a _ l c (hname a (List.mem_cons_self a rest)) h)

/-- A successful lookup means the key is present. -/
theorem mem_dictKeys_of_lookupA_some (m : List (Atom × List Atom)) (k : Atom)
    (v : List Atom) (h : lookupA m k = some v) : k ∈ dictKeys m := by
  unfold lookupA at h
  cases hf : m.find? (fun p => p.1 = k) with
  | none => rw [hf] at h; cases h
  | some p =>
    have h1 := List.find?_some hf
    have h2 := List.mem_of_find?_eq_some hf
    exact List.mem_map.mpr ⟨p, h2, of_decide_eq_true h1⟩

/-- A dictionary write always leaves its own key present. -/
theorem self_mem_dictKeys_dictSet (m : List (Atom × List Atom)) (k : Atom)
    (v : List Atom) : k ∈ dictKeys (dictSet m k v) :=
  mem_dictKeys_of_lookupA_some _ k v (lookupA_dictSet_self m k v)

/-- The persistence phase makes every processed literal a key of
`next_state_links` and keeps every existing key: keys are only ever written,
never removed. -/
theorem persist_foldl_key (cs : List Atom) :
    ∀ (l : Level) (c : Atom),
      (c ∈ cs ∨ c ∈ dictKeys l.next_state_links) →
      c ∈ dictKeys ((cs.foldl persistStep l).next_state_links) := by
  induction cs with
  | nil =>
    rintro l c (h | h)
    · cases h
    · exact h
  | cons d rest ih =>
    rintro l c (h | h)
    · rcases List.mem_cons.mp h with rfl | h2
      · exact ih (persistStep l c) c (Or.inr (self_mem_dictKeys_dictSet _ _ _))
      · exact ih _ c (Or.inl h2)
    · exact ih _ c (Or.inr (mem_dictKeys_dictSet _ _ _ _ h))

/-- One effect registration keeps every key of `next_state_links`, whatever
it overwrites. -/
theorem registerEff_key (a : PAction) (arg : List String) (na : Atom)
    (l : Level) (clause c : Atom) (h : c ∈ dictKeys l.next_state_links) :
    c ∈ dictKeys ((registerEff a arg na l clause).next_state_links) :=
  mem_dictKeys_dictSet _ _ _ _ h

/-- The effect loop keeps every key of `next_state_links`. -/
theorem foldl_registerEff_key (a : PAction) (arg : List String) (na : Atom)
    (clauses : List Atom) :
    ∀ (l : Level) (c : Atom), c ∈ dictKeys l.next_state_links →
      c ∈ dictKeys ((clauses.foldl (registerEff a arg na) l).next_state_links) := by
  induction clauses with
  | nil => exact fun l c h => h
  | cons d rest ih =>
    intro l c h
    exact ih _ c (registerEff_key a arg na l d c h)

/-- The precondition loop does not touch `next_state_links` at all. -/
theorem foldl_registerPre_key (a : PAction) (arg : List String) (na : Atom)
    (clauses : List Atom) :
    ∀ (l : Level) (c : Atom), c ∈ dictKeys l.next_state_links →
      c ∈ dictKeys ((clauses.foldl (registerPre a arg na) l).next_state_links) := by
  induction clauses with
  | nil => exact fun l c h => h
  | cons d rest ih =>
    intro l c h
    exact ih _ c h

/-- Registering a ground action — colliding with a persistence node or
not — keeps every key of `next_state_links`. -/
theorem registerAction_key (a : PAction) (arg : List String) (l : Level)
    (c : Atom) (h : c ∈ dictKeys l.next_state_links) :
    c ∈ dictKeys ((registerAction a arg l).next_state_links) :=
  foldl_registerEff_key a arg (groundNode a arg) a.effect (registerStage3 a arg l) c
    (foldl_registerPre_key a arg (groundNode a arg) a.precond
      (registerStage1 a arg l) c h)

/-- One grounding attempt keeps every key of `next_state_links`. -/
theorem buildArgStep_key (a : PAction) (l : Level) (arg : List String) (c : Atom)
    (h : c ∈ dictKeys l.next_state_links) :
    c ∈ dictKeys ((buildArgStep a l arg).next_state_links) := by
  unfold buildArgStep
  split
  · exact registerAction_key a _ l c h
  · exact h

/-- All grounding attempts of one schema keep every key of
`next_state_links`. -/
theorem buildActStep_key (a : PAction) (perms : List (List String)) :
    ∀ (l : Level) (c : Atom), c ∈ dictKeys l.next_state_links →
      c ∈ dictKeys ((perms.foldl (buildArgStep a) l).next_state_links) := by
  induction perms with
  | nil => exact fun l c h => h
  | cons arg rest ih =>
    intro l c h
    exact ih _ c (buildArgStep_key a l arg c h)

/-- The whole grounding phase keeps every key of `next_state_links`. -/
theorem build_fold_key (objects : List String) (actions : List PAction) :
    ∀ (l : Level) (c : Atom), c ∈ dictKeys l.next_state_links →
      c ∈ dictKeys ((actions.foldl (buildActStep objects) l).next_state_links) := by
  induction actions with
  | nil => exact fun l c h => h
  | cons a rest ih =>
    intro l c h
    exact ih _ c (buildActStep_key a _ l c h)

/-- C4 (amended): in every level built from a fresh state, unconditionally
every literal true at this level appears again in the level
`perform_actions` produces (its `next_state_links` key is written by the
persistence phase and keys are never removed, even by a colliding
registration); and provided no schema's name is the letter `P` prefixed to
the predicate name of a current literal (so no ground action node collides
with a persistence node), every literal of the current state also keeps its
persistence action linked to exactly the literal on both sides, with the
persistence node among the literal's links on both state sides. -/
theorem c4_persistence_amended (kb : List Atom) (actions : List PAction)
    (objects : List String) :
    (∀ c ∈ kb,
      c ∈ (Level.build (initLevel kb) actions objects).perform_actions.current_state) ∧
    ((∀ a ∈ actions, ∀ c ∈ kb, a.name ≠ "P" ++ c.op) →
      ∀ c ∈ kb,
        lookupA (Level.build (initLevel kb) actions objects).current_action_links
          (pAtom c) = some [c] ∧
        lookupA (Level.build (initLevel kb) actions objects).next_action_links
          (pAtom c) = some [c] ∧
        pAtom c ∈ lookupD (Level.build (initLevel kb) actions objects).current_state_links c ∧
        pAtom c ∈ lookupD (Level.build (initLevel kb) actions objects).next_state_links c) := by
  constructor
  · intro c hc
    have hk : c ∈ dictKeys (Level.build (initLevel kb) actions objects).next_state_links := by
      unfold Level.build
      apply build_fold_key
      unfold persistencePhase
      exact persist_foldl_key (initLevel kb).current_state (initLevel kb) c (Or.inl hc)
    exact (mem_pySet _ _).mpr hk
  · intro hname c hc
    have hp : persists (Level.build (initLevel kb) actions objects) c := by
      unfold Level.build
      apply build_fold_preserve objects actions _ c (fun a ha => hname a ha c hc)
      unfold persistencePhase
      exact persist_foldl (initLevel kb).current_state (initLevel kb) c (Or.inl hc)
    exact ⟨hp.1, hp.2.1, hp.2.2.1, hp.2.2.2⟩

/-- C4 counterexample: with the schema `PHave(x)` (precondition `Have(x)`,
no effects), the grounding `PHave(Cake)` collides with the persistence node
of `Have(Cake)` and overwrites its links: after `build`, the node's
next-side links are empty rather than carrying the literal, so the
persistence action is no longer linked identically on both sides. -/
theorem c4_counterexample :
    haveCake ∈ (initLevel [haveCake]).current_state ∧
    lookupA c4Level.next_action_links (pAtom haveCake) = some [] ∧
    lookupA c4Level.next_action_links (pAtom haveCake) ≠ some [haveCake] ∧
    lookupA c4Level.current_action_links (pAtom haveCake) = some [haveCake] :=
  ⟨by decide, by decide, by decide, by decide⟩

/-- C4 witness: the literal `Have(Cake)` persists into the next level even
in the build with the colliding `PHave` schema (the unconditional conjunct
applied to that very level), and with the innocuous `Eat` schema its
persistence links also survive the build. -/
theorem c4_witness :
    haveCake ∈ c4Level.perform_actions.current_state ∧
    lookupA c4wLevel.next_action_links (pAtom haveCake) = some [haveCake] := by
  constructor
  · exact (c4_persistence_amended [haveCake] [pHaveSchema] ["Cake"]).1
      haveCake (by decide)
  · exact ((c4_persistence_amended [haveCake] [eatCakeSchema] ["Cake"]).2
      (by decide) haveCake (by decide)).2.1

/-- A graph entry whose key is emitted has an empty dependency list (under
distinct keys). -/
theorem nodup_keys_eq {α : Type} (g : List (α × List α))
    (hnd : (g.map (fun p => p.1)).Nodup) (b : α) (s t : List α)
    (hs : (b, s) ∈ g) (ht : (b, t) ∈ g) : s = t := by
  induction g with
  | nil => cases hs
  | cons p rest ih =>
    rw [List.map_cons, List.nodup_cons] at hnd
    rcases List.mem_cons.mp hs with rfl | hs2
    · rcases List.mem_cons.mp ht with he | ht2
      · injection he with h1 h2
        exact h2.symm
      · exact absurd (List.mem_map.mpr ⟨(b, t), ht2, rfl⟩) hnd.1
    · rcases List.mem_cons.mp ht with rfl | ht2
      · exact absurd (List.mem_map.mpr ⟨(b, s), hs2, rfl⟩) hnd.1
      · exact ih hnd.2 hs2 ht2

/-- When no key is emitted, every entry still has dependencies. -/
theorem peelOrdered_isEmpty {α : Type} [DecidableEq α] (g : List (α × List α))
    (h : (peelOrdered g).isEmpty = true) : ∀ p ∈ g, ¬ p.2.isEmpty = true := by
  intro p hp hpe
  unfold peelOrdered at h
  rw [List.isEmpty_iff] at h
  have hm : p.1 ∈ (g.filter (fun p => p.2.isEmpty)).map (fun p => p.1) :=
    List.mem_map.mpr ⟨p, List.mem_filter.mpr ⟨hp, hpe⟩, rfl⟩
  rw [h] at hm
  cases hm

/-- Membership of an emitted key. -/
theorem mem_peelOrdered {α : Type} [DecidableEq α] (g : List (α × List α)) (x : α) :
    x ∈ peelOrdered g ↔ ∃ s, (x, s) ∈ g ∧ s.isEmpty = true := by
  unfold peelOrdered
  constructor
  · intro hx
    rcases List.mem_map.mp hx with ⟨p, hpf, hpx⟩
    obtain ⟨hpg, hpe⟩ := List.mem_filter.mp hpf
    refine ⟨p.2, ?_, hpe⟩
    rw [← hpx]
    exact hpg
  · rintro ⟨s, hsg, hse⟩
    exact List.mem_map.mpr ⟨(x, s), List.mem_filter.mpr ⟨hsg, hse⟩, rfl⟩

/-- A surviving key stays a key after one peeling pass. -/
theorem mem_keys_peelNext {α : Type} [DecidableEq α] (g : List (α × List α)) (d : α)
    (hd : d ∈ g.map (fun q => q.1)) (hno : d ∉ peelOrdered g) :
    d ∈ (peelNext g).map (fun q => q.1) := by
  rcases List.mem_map.mp hd with ⟨q, hq, hqd⟩
  refine List.mem_map.mpr
    ⟨(q.1, q.2.filter (fun x => x ∉ peelOrdered g)), ?_, hqd⟩
  unfold peelNext
  refine List.mem_map.mpr ⟨q, List.mem_filter.mpr ⟨hq, ?_⟩, rfl⟩
  exact decide_eq_true (hqd.symm ▸ hno)

/-- One peeling pass preserves the residual invariant. -/
theorem residOK_peelNext {α : Type} [DecidableEq α] (g0 g : List (α × List α))
    (h : residOK g0 g) : residOK g0 (peelNext g) := by
  intro p2 hp2 d hd
  unfold peelNext at hp2
  rcases List.mem_map.mp hp2 with ⟨p, hpf, rfl⟩
  obtain ⟨hpg, _⟩ := List.mem_filter.mp hpf
  obtain ⟨hdp, hdno⟩ := List.mem_filter.mp hd
  obtain ⟨h1, h2, h3⟩ := h p hpg d hdp
  exact ⟨h1, mem_keys_peelNext g d h2 (of_decide_eq_true hdno), h3⟩

/-- One peeling pass keeps the keys distinct. -/
theorem nodup_keys_peelNext {α : Type} [DecidableEq α] (g : List (α × List α))
    (h : (g.map (fun q => q.1)).Nodup) :
    ((peelNext g).map (fun q => q.1)).Nodup := by
  unfold peelNext
  rw [List.map_map]
  have he : ((g.filter (fun p => p.1 ∉ peelOrdered g)).map
      ((fun q => q.1) ∘ fun p => (p.1, p.2.filter (fun d => d ∉ peelOrdered g)))) =
      (g.filter (fun p => p.1 ∉ peelOrdered g)).map (fun q => q.1) := rfl
  rw [he]
  exact h.sublist ((List.filter_sublist g).map (fun q => q.1))

/-- The residual invariant survives the whole peeling loop. -/
theorem peel_residual_residOK {α : Type} [DecidableEq α] (fuel : Nat) :
    ∀ (g0 g : List (α × List α)), residOK g0 g → residOK g0 (peel fuel g).2 := by
  induction fuel with
  | zero => exact fun g0 g h => h
  | succ f ih =>
    intro g0 g h
    simp only [peel]
    by_cases hE : (peelOrdered g).isEmpty = true
    · rw [if_pos hE]
      exact h
    · rw [if_neg hE]
      exact ih g0 (peelNext g) (residOK_peelNext g0 g h)

/-- One peeling pass on a graph with an emitted key strictly shrinks it. -/
theorem peelNext_length_lt {α : Type} [DecidableEq α] (g : List (α × List α))
    (hE : ¬ (peelOrdered g).isEmpty = true) :
    (peelNext g).length < g.length := by
  unfold peelNext
  rw [List.length_map]
  apply List.length_filter_lt_length_iff_exists.mpr
  have hne : peelOrdered g ≠ [] := fun he => hE (by rw [he]; rfl)
  obtain ⟨x, hx⟩ := List.exists_mem_of_ne_nil _ hne
  obtain ⟨s, hsg, _⟩ := (mem_peelOrdered g x).mp hx
  exact ⟨(x, s), hsg, by simp [hx]⟩

/-- With fuel exceeding the entry count, every entry of the residual graph
still has dependencies (the loop stopped because no key qualified, not
because the fuel ran out). -/
theorem peel_residual_nonempty_deps {α : Type} [DecidableEq α] (fuel : Nat) :
    ∀ g : List (α × List α), g.length < fuel →
      ∀ p ∈ (peel fuel g).2, ¬ p.2.isEmpty = true := by
  induction fuel with
  | zero => exact fun g h => absurd h (Nat.not_lt_zero _)
  | succ f ih =>
    intro g hlen
    simp only [peel]
    by_cases hE : (peelOrdered g).isEmpty = true
    · rw [if_pos hE]
      exact peelOrdered_isEmpty g hE
    · rw [if_neg hE]
      have h1 := peelNext_length_lt g hE
      exact ih (peelNext g) (by omega)

/-- In a finite nonempty set where every element has a predecessor inside
the set, some element lies on a cycle of the relation. -/
theorem exists_transGen_cycle {α : Type} (r : α → α → Prop) (S : Finset α) :
    S.Nonempty → (∀ b ∈ S, ∃ a ∈ S, r a b) →
      ∃ x ∈ S, Relation.TransGen r x x := by
  classical
  induction S using Finset.strongInductionOn with
  | _ S ih =>
    intro hne hpred
    obtain ⟨b, hb⟩ := hne
    by_cases hbb : Relation.TransGen r b b
    · exact ⟨b, hb, hbb⟩
    · have hTne : (S.filter (fun y => Relation.TransGen r y b)).Nonempty := by
        obtain ⟨a, ha, hr⟩ := hpred b hb
        exact ⟨a, Finset.mem_filter.mpr ⟨ha, Relation.TransGen.single hr⟩⟩
      have hTpred : ∀ y ∈ S.filter (fun y => Relation.TransGen r y b),
          ∃ z ∈ S.filter (fun y => Relation.TransGen r y b), r z y := by
        intro y hy
        obtain ⟨hyS, hyb⟩ := Finset.mem_filter.mp hy
        obtain ⟨z, hz, hrzy⟩ := hpred y hyS
        exact ⟨z, Finset.mem_filter.mpr ⟨hz, Relation.TransGen.head hrzy hyb⟩, hrzy⟩
      have hsub : S.filter (fun y => Relation.TransGen r y b) ⊂ S :=
        (Finset.ssubset_iff_of_subset (Finset.filter_subset _ _)).mpr
          ⟨b, hb, fun hbT => hbb (Finset.mem_filter.mp hbT).2⟩
      obtain ⟨x, hx, hxx⟩ := ih _ hsub hTne hTpred
      exact ⟨x, (Finset.mem_filter.mp hx).1, hxx⟩

/-- Completeness of the peeling loop: on an input satisfying the residual
invariant for an original graph with no cycle among distinct nodes, the
residual is empty. -/
theorem peel_complete {α : Type} [DecidableEq α] (g0 g : List (α × List α))
    (fuel : Nat) (hfuel : g.length < fuel) (hok : residOK g0 g)
    (hacyc : ∀ x : α, ¬ Relation.TransGen
      (fun a b => (∃ s, (b, s) ∈ g0 ∧ a ∈ s) ∧ a ≠ b) x x) :
    (peel fuel g).2 = [] := by
  classical
  by_contra hne
  have hdeps := peel_residual_nonempty_deps fuel g hfuel
  have hok2 := peel_residual_residOK fuel g0 g hok
  obtain ⟨x0, hx0⟩ := List.exists_mem_of_ne_nil _ hne
  have hSne : (((peel fuel g).2.map (fun q => q.1)).toFinset).Nonempty :=
    ⟨x0.1, List.mem_toFinset.mpr (List.mem_map.mpr ⟨x0, hx0, rfl⟩)⟩
  have hpred : ∀ b ∈ ((peel fuel g).2.map (fun q => q.1)).toFinset,
      ∃ a ∈ ((peel fuel g).2.map (fun q => q.1)).toFinset,
        (∃ s, (b, s) ∈ g0 ∧ a ∈ s) ∧ a ≠ b := by
    intro b hb
    rcases List.mem_map.mp (List.mem_toFinset.mp hb) with ⟨p, hp, hpb⟩
    have hpe := hdeps p hp
    have hdne : p.2 ≠ [] := fun he => hpe (by rw [he]; rfl)
    obtain ⟨d, hd⟩ := List.exists_mem_of_ne_nil _ hdne
    obtain ⟨h1, h2, h3⟩ := hok2 p hp d hd
    refine ⟨d, List.mem_toFinset.mpr h2, ⟨?_, ?_⟩⟩
    · rw [← hpb]
      exact h3
    · rw [← hpb]
      exact h1
  obtain ⟨x, _, hxx⟩ := exists_transGen_cycle _ _ hSne hpred
  exact hacyc x hxx

/-- Every element of an emitted group is a key of the graph it was peeled
from. -/
theorem peel_groups_subset_keys {α : Type} [DecidableEq α] (fuel : Nat) :
    ∀ (g : List (α × List α)) (j : Nat) (x : α),
      x ∈ (peel fuel g).1.getD j [] → x ∈ g.map (fun q => q.1) := by
  induction fuel with
  | zero =>
    intro g j x hx
    simp [peel] at hx
  | succ f ih =>
    intro g j x hx
    simp only [peel] at hx
    by_cases hE : (peelOrdered g).isEmpty = true
    · rw [if_pos hE] at hx
      simp at hx
    · rw [if_neg hE] at hx
      cases j with
      | zero =>
        rw [List.getD_cons_zero] at hx
        obtain ⟨s, hsg, _⟩ := (mem_peelOrdered g x).mp hx
        exact List.mem_map.mpr ⟨(x, s), hsg, rfl⟩
      | succ j2 =>
        rw [List.getD_cons_succ] at hx
        have hk := ih (peelNext g) j2 x hx
        unfold peelNext at hk
        rw [List.map_map] at hk
        rcases List.mem_map.mp hk with ⟨p, hpf, hpx⟩
        exact List.mem_map.mpr ⟨p, (List.mem_filter.mp hpf).1, hpx⟩

/-- The peeling loop emits every current dependency of an emitted key
strictly earlier (under distinct keys). -/
theorem peel_order {α : Type} [DecidableEq α] (fuel : Nat) :
    ∀ (g : List (α × List α)), (g.map (fun q => q.1)).Nodup →
      ∀ (a b : α) (s : List α) (j : Nat), (b, s) ∈ g → a ∈ s →
        b ∈ (peel fuel g).1.getD j [] →
        ∃ i, i < j ∧ a ∈ (peel fuel g).1.getD i [] := by
  induction fuel with
  | zero =>
    intro g _ a b s j _ _ hbj
    simp [peel] at hbj
  | succ f ih =>
    intro g hnd a b s j hbs ha hbj
    simp only [peel] at hbj ⊢
    by_cases hE : (peelOrdered g).isEmpty = true
    · rw [if_pos hE] at hbj
      simp at hbj
    · rw [if_neg hE] at hbj ⊢
      cases j with
      | zero =>
        rw [List.getD_cons_zero] at hbj
        obtain ⟨t, htg, hte⟩ := (mem_peelOrdered g b).mp hbj
        have hst := nodup_keys_eq g hnd b s t hbs htg
        rw [List.isEmpty_iff] at hte
        rw [hst, hte] at ha
        cases ha
      | succ j2 =>
        rw [List.getD_cons_succ] at hbj
        by_cases hao : a ∈ peelOrdered g
        · refine ⟨0, Nat.succ_pos j2, ?_⟩
          rw [List.getD_cons_zero]
          exact hao
        · have hbk := peel_groups_subset_keys f (peelNext g) j2 b hbj
          have hbo : b ∉ peelOrdered g := by
            intro hbo
            rcases List.mem_map.mp hbk with ⟨p, hpf, hpb⟩
            unfold peelNext at hpf
            rcases List.mem_map.mp hpf with ⟨q, hqf, hqe⟩
            obtain ⟨_, hqo⟩ := List.mem_filter.mp hqf
            have : q.1 = b := by
              rw [← hpb, ← hqe]
            exact (of_decide_eq_true hqo) (this ▸ hbo)
          have hmem : (b, s.filter (fun d => d ∉ peelOrdered g)) ∈ peelNext g := by
            unfold peelNext
            exact List.mem_map.mpr
              ⟨(b, s), List.mem_filter.mpr ⟨hbs, decide_eq_true hbo⟩, rfl⟩
          have ha2 : a ∈ s.filter (fun d => d ∉ peelOrdered g) :=
            List.mem_filter.mpr ⟨ha, decide_eq_true hao⟩
          obtain ⟨i, hi, hai⟩ := ih (peelNext g) (nodup_keys_peelNext g hnd)
            a b _ j2 hmem ha2 hbj
          refine ⟨i + 1, by omega, ?_⟩
          rw [List.getD_cons_succ]
          exact hai

/-- Membership in the dependency-union fold of `toposort`. -/
theorem mem_depUnion {α : Type} [DecidableEq α] (xs : List (α × List α)) :
    ∀ (acc : List α) (x : α),
      x ∈ xs.foldl (fun acc p => acc ++ p.2.filter (fun d => d ∉ acc)) acc ↔
        (x ∈ acc ∨ ∃ p ∈ xs, x ∈ p.2) := by
  induction xs with
  | nil => simp
  | cons p rest ih =>
    intro acc x
    rw [List.foldl_cons, ih]
    have hstep : x ∈ acc ++ p.2.filter (fun d => d ∉ acc) ↔ (x ∈ acc ∨ x ∈ p.2) := by
      rw [List.mem_append, List.mem_filter]
      by_cases hx : x ∈ acc
      · simp [hx]
      · simp [hx]
    rw [hstep]
    constructor
    · rintro ((h | h) | ⟨q, hq, hxq⟩)
      · exact Or.inl h
      · exact Or.inr ⟨p, List.mem_cons_self p rest, h⟩
      · exact Or.inr ⟨q, List.mem_cons_of_mem p hq, hxq⟩
    · rintro (h | ⟨q, hq, hxq⟩)
      · exact Or.inl (Or.inl h)
      · rcases List.mem_cons.mp hq with rfl | hq2
        · exact Or.inl (Or.inr hxq)
        · exact Or.inr ⟨q, hq2, hxq⟩

/-- The dependency-union fold keeps its accumulator free of duplicates when
every dependency set is. -/
theorem nodup_depUnion {α : Type} [DecidableEq α] (xs : List (α × List α)) :
    ∀ acc : List α, acc.Nodup → (∀ p ∈ xs, p.2.Nodup) →
      (xs.foldl (fun acc p => acc ++ p.2.filter (fun d => d ∉ acc)) acc).Nodup := by
  induction xs with
  | nil => exact fun acc h _ => h
  | cons p rest ih =>
    intro acc hacc hdep
    rw [List.foldl_cons]
    refine ih _ ?_ (fun q hq => hdep q (List.mem_cons_of_mem p hq))
    refine hacc.append ((hdep p (List.mem_cons_self p rest)).filter _) ?_
    intro a ha1 ha2
    exact (of_decide_eq_true (List.mem_filter.mp ha2).2) ha1

/-- Discarding self-dependencies does not change the key list. -/
theorem keys_toposortPrep {α : Type} [DecidableEq α] (g : List (α × List α)) :
    (toposortPrep g).map (fun q => q.1) = g.map (fun q => q.1) := by
  unfold toposortPrep
  rw [List.map_map]
  rfl

/-- The key list of the peeling input: the original keys followed by the
extra elements. -/
theorem keys_toposortInput {α : Type} [DecidableEq α] (g : List (α × List α)) :
    (toposortInput g).map (fun q => q.1) =
      g.map (fun q => q.1) ++ toposortExtra (toposortPrep g) := by
  unfold toposortInput
  rw [List.map_append, keys_toposortPrep, List.map_map]
  have he : ((toposortExtra (toposortPrep g)).map
      ((fun q => q.1) ∘ fun e => (e, ([] : List α)))) =
      (toposortExtra (toposortPrep g)).map id := rfl
  rw [he, List.map_id]

/-- The peeling input has distinct keys when the original graph does and its
dependency lists are duplicate-free. -/
theorem nodup_keys_toposortInput {α : Type} [DecidableEq α] (g : List (α × List α))
    (hnd : (g.map (fun q => q.1)).Nodup) (hdep : ∀ p ∈ g, p.2.Nodup) :
    ((toposortInput g).map (fun q => q.1)).Nodup := by
  rw [keys_toposortInput]
  have hprepdep : ∀ p ∈ toposortPrep g, p.2.Nodup := by
    intro p hp
    unfold toposortPrep at hp
    rcases List.mem_map.mp hp with ⟨q, hq, rfl⟩
    exact (hdep q hq).filter _
  have hext : (toposortExtra (toposortPrep g)).Nodup := by
    unfold toposortExtra
    exact (nodup_depUnion (toposortPrep g) [] List.nodup_nil hprepdep).filter _
  refine hnd.append hext ?_
  intro a ha1 ha2
  unfold toposortExtra at ha2
  have h2 := (List.mem_filter.mp ha2).2
  rw [keys_toposortPrep] at h2
  exact (of_decide_eq_true h2) ha1

/-- The peeling input satisfies the residual invariant relative to the
original graph. -/
theorem residOK_toposortInput {α : Type} [DecidableEq α] (g : List (α × List α)) :
    residOK g (toposortInput g) := by
  intro p hp d hd
  unfold toposortInput at hp
  rcases List.mem_append.mp hp with hp1 | hp2
  · unfold toposortPrep at hp1
    rcases List.mem_map.mp hp1 with ⟨q, hq, rfl⟩
    obtain ⟨hds, hdne⟩ := List.mem_filter.mp hd
    refine ⟨of_decide_eq_true hdne, ?_, ⟨q.2, ?_, hds⟩⟩
    · rw [keys_toposortInput]
      have hdu : d ∈ (toposortPrep g).foldl
          (fun acc p => acc ++ p.2.filter (fun x => x ∉ acc)) [] := by
        rw [mem_depUnion]
        refine Or.inr ⟨(q.1, q.2.filter (fun x => x ≠ q.1)), ?_, hd⟩
        unfold toposortPrep
        exact List.mem_map.mpr ⟨q, hq, rfl⟩
      by_cases hk : d ∈ g.map (fun q => q.1)
      · exact List.mem_append_left _ hk
      · refine List.mem_append_right _ ?_
        unfold toposortExtra
        refine List.mem_filter.mpr ⟨hdu, ?_⟩
        rw [keys_toposortPrep]
        exact decide_eq_true hk
    · exact hq
  · rcases List.mem_map.mp hp2 with ⟨e, _, rfl⟩
    cases hd

/-- C6: for every dependency dictionary with distinct keys, duplicate-free
dependency sets, and no cycle among distinct nodes, `toposort` raises no
error (the residual graph is empty) and its emitted groups form a valid
topological order: every dependency of an emitted element distinct from it
is emitted in a strictly earlier group.  Independently of acyclicity, when
`toposort` does raise, the non-empty residual is one in which no node has
zero remaining dependencies. -/
theorem c6_toposort_correct {α : Type} [DecidableEq α] :
    (∀ g : List (α × List α), (g.map (fun q => q.1)).Nodup →
      (∀ p ∈ g, p.2.Nodup) →
      (∀ x : α, ¬ Relation.TransGen
        (fun a b => (∃ s, (b, s) ∈ g ∧ a ∈ s) ∧ a ≠ b) x x) →
      ((toposort g).2 = [] ∧
        ∀ (a b : α) (s : List α) (j : Nat), (b, s) ∈ g → a ∈ s → a ≠ b →
          b ∈ (toposort g).1.getD j [] →
          ∃ i, i < j ∧ a ∈ (toposort g).1.getD i [])) ∧
    (∀ g : List (α × List α), ∀ p ∈ (toposort g).2, ¬ p.2.isEmpty = true) := by
  constructor
  · intro g hnd hdep hacyc
    constructor
    · unfold toposort
      by_cases hg : g.isEmpty = true
      · rw [if_pos hg]
      · rw [if_neg hg]
        exact peel_complete g (toposortInput g) _ (Nat.lt_succ_self _)
          (residOK_toposortInput g) hacyc
    · intro a b s j hbs ha hab hbj
      unfold toposort at hbj ⊢
      by_cases hg : g.isEmpty = true
      · rw [if_pos hg] at hbj
        simp at hbj
      · rw [if_neg hg] at hbj ⊢
        have hmem : (b, s.filter (fun d => d ≠ b)) ∈ toposortInput g := by
          unfold toposortInput toposortPrep
          exact List.mem_append_left _ (List.mem_map.mpr ⟨(b, s), hbs, rfl⟩)
        have ha2 : a ∈ s.filter (fun d => d ≠ b) :=
          List.mem_filter.mpr ⟨ha, decide_eq_true hab⟩
        exact peel_order _ (toposortInput g) (nodup_keys_toposortInput g hnd hdep)
          a b _ j hmem ha2 hbj
  · intro g p hp
    unfold toposort at hp
    by_cases hg : g.isEmpty = true
    · rw [if_pos hg] at hp
      cases hp
    · rw [if_neg hg] at hp
      exact peel_residual_nonempty_deps _ (toposortInput g) (Nat.lt_succ_self _) p hp

/-- C6 witness: on the two-node graph in which `2` depends on `1`, the
correctness theorem applies (the acyclicity hypothesis is discharged by
chasing the only edge) and yields an empty residual. -/
theorem c6_witness : (toposort [((2 : Nat), [1]), (1, [])]).2 = [] := by
  have hstep : ∀ a b : Nat,
      ((∃ s, (b, s) ∈ [((2 : Nat), [1]), (1, [])] ∧ a ∈ s) ∧ a ≠ b) →
        a = 1 ∧ b = 2 := by
    rintro a b ⟨⟨s, hs, has⟩, _⟩
    rcases List.mem_cons.mp hs with he | hs2
    · injection he with hb hse
      subst hse
      exact ⟨List.mem_singleton.mp has, hb⟩
    · rcases List.mem_cons.mp hs2 with he2 | h0
      · injection he2 with hb hse
        subst hse
        cases has
      · cases h0
  have h := (c6_toposort_correct (α := Nat)).1 [((2 : Nat), [1]), (1, [])]
    (by decide) (by decide) ?_
  · exact h.1
  · intro x hx
    have aux : ∀ u v : Nat, Relation.TransGen
        (fun a b => (∃ s, (b, s) ∈ [((2 : Nat), [1]), (1, [])] ∧ a ∈ s) ∧ a ≠ b)
        u v → u = 1 ∧ v = 2 := by
      intro u v huv
      induction huv with
      | single h1 => exact hstep _ _ h1
      | tail _ h1 ih =>
        obtain ⟨hu, hb⟩ := ih
        obtain ⟨hb2, hv⟩ := hstep _ _ h1
        omega
    obtain ⟨h1, h2⟩ := aux x x hx
    omega
